import Mathlib

/-! khashmap: a fixed-size key/value hash map (`khashmap.h`, `khashmap.c`)

A shallow embedding of the hash map engine.

* A bucket chain (`struct hlist_head` and the `hlist_node`s linked from it) is the list
  of the items linked on it, in link order.
* `struct khashmap` is its two fields; `hash` is `none` for the `NULL` pointer and
  otherwise the array of chain heads it points to.
* A pointer to an item (`struct khashmap_item *`) is the place of the item: the index
  of its bucket and its position in that chain.
* Every function returns an `Option`: `none` says that the C code reads or writes
  through `NULL` or outside the bucket array, shifts by the width of the type or
  overflows a signed integer there (undefined behaviour), `some r` that it returns `r`.
* What the module takes from the Linux kernel and is not part of the repository
  (`hash_long`, `PAGE_SIZE`, the outcome of allocations) is a parameter.
* The release of memory is an effect: `khashmap_free` and `khashmap_destroy` return the
  calls they make (`kernel_call`), in order, next to the fields of the map object. A
  `hash` that names a released block is shown with the content the block had when it
  was released.
-/

namespace Khashmap

/-! ## Constants of the C environment -/

/-- Width in bits of `unsigned long` and of `size_t` (LP64). -/
def BITS_PER_LONG : Nat := 64

/-- Largest value of an `int`. -/
def INT_MAX : Nat := 2 ^ 31 - 1

/-- The number `sizeof(struct hlist_head)`: a chain head is one pointer. -/
def sizeof_hlist_head : Nat := 8

/-- The errno of a failed allocation. -/
def ENOMEM : Int := 12

/-- The null pointer, as a value handle (`void *`). -/
def NULL : Nat := 0

/-! ## Data model (`khashmap.h`) -/

/-- A `struct khashmap_item` without its link: `key` is a `u64`, `val` a `void *`
(an address, `NULL` being `0`). -/
structure khashmap_item where
  key : Nat
  val : Nat
deriving DecidableEq, Repr

/-- A `struct hlist_head` with the chain hanging from it. -/
abbrev hlist_head := List khashmap_item

/-- A `struct khashmap`. -/
structure khashmap where
  bits : Nat
  hash : Option (List hlist_head)
deriving DecidableEq, Repr

/-- A `struct khashmap_item *` that is not `NULL`: the item at position `pos` of the
chain of bucket `bucket`. -/
structure item_ptr where
  bucket : Nat
  pos : Nat
deriving DecidableEq, Repr

/-- What the module uses of the kernel. `hash_long val bits` is `hash_long` of
`linux/hash.h`; `kmalloc size` and `vmalloc size` are the outcome of the call: `none`
for `NULL`, `some stale` for a block of `size` bytes whose `i`-th chain head holds the
stale content `stale i` until it is written. -/
structure Kernel where
  hash_long : Nat → Nat → Nat
  PAGE_SIZE : Nat
  kmalloc : Nat → Option (Nat → hlist_head)
  vmalloc : Nat → Option (Nat → hlist_head)

/-- The macro `DEFINE_KHASHMAP_BITS`. -/
def DEFINE_KHASHMAP_BITS (bits : Nat) : khashmap :=
  { bits := bits, hash := none }

/-- The macro `DEFINE_KHASHMAP`. -/
def DEFINE_KHASHMAP : khashmap := DEFINE_KHASHMAP_BITS 9

/-- The function `khashmap_size`: `1UL << hlist->bits`. -/
def khashmap_size (hlist : khashmap) : Option Nat :=
  if hlist.bits < BITS_PER_LONG then some (2 ^ hlist.bits % 2 ^ BITS_PER_LONG) else none

/-- The function `khashmap_size_in_bytes`, a `size_t` product. -/
def khashmap_size_in_bytes (hlist : khashmap) : Option Nat :=
  (khashmap_size hlist).map fun n => n * sizeof_hlist_head % 2 ^ BITS_PER_LONG

/-! ## Operations (`khashmap.c`) -/

/-- The macro `khashmap_hashfn`: `hash_long((unsigned long)__id, __hash->bits)`. -/
def khashmap_hashfn (K : Kernel) (hlist : khashmap) (id : Nat) : Nat :=
  K.hash_long (id % 2 ^ BITS_PER_LONG) hlist.bits

/-- The loop of `khashmap_empty`, `khashmap_for_each_entry` with the body
`return false`, with `n` buckets still to visit and the `int` counter at `pos`. -/
def khashmap_empty_loop (hlist : khashmap) : Nat → Nat → Option Bool
  | 0, _ => some true
  | n + 1, pos =>
    match hlist.hash with
    | none => none
    | some arr =>
      match arr[pos]? with
      | none => none
      | some (_ :: _) => some false
      | some [] =>
        if pos + 1 ≤ INT_MAX then khashmap_empty_loop hlist n (pos + 1) else none

/-- The function `khashmap_empty`; the argument is `none` for a null map pointer. -/
def khashmap_empty (hlist : Option khashmap) : Option Bool :=
  match hlist with
  | none => some true
  | some h =>
    match khashmap_size h with
    | none => none
    | some size => khashmap_empty_loop h size 0

/-- The scan of one chain in `khashmap_find_item`: the position of the first item
whose key is `key`. -/
def hlist_scan (key : Nat) : hlist_head → Option Nat
  | [] => none
  | item :: rest =>
    if item.key = key then some 0 else (hlist_scan key rest).map (· + 1)

/-- The function `khashmap_find_item`: `some none` is the return value `NULL`. -/
def khashmap_find_item (K : Kernel) (hlist : khashmap) (key : Nat) :
    Option (Option item_ptr) :=
  match hlist.hash with
  | none => none
  | some arr =>
    match arr[khashmap_hashfn K hlist key]? with
    | none => none
    | some chain =>
      some ((hlist_scan key chain).map fun pos =>
        { bucket := khashmap_hashfn K hlist key, pos := pos })

/-- Reads `*item`. -/
def item_read (hlist : khashmap) (item : item_ptr) : Option khashmap_item :=
  match hlist.hash with
  | none => none
  | some arr =>
    match arr[item.bucket]? with
    | none => none
    | some chain => chain[item.pos]?

/-- The assignment `item->val = val`. -/
def item_set_val (hlist : khashmap) (item : item_ptr) (val : Nat) : Option khashmap :=
  match hlist.hash with
  | none => none
  | some arr =>
    match arr[item.bucket]? with
    | none => none
    | some chain =>
      match chain[item.pos]? with
      | none => none
      | some it =>
        some { hlist with
          hash := some (arr.set item.bucket (chain.set item.pos { it with val := val })) }

/-- The call `hlist_add_head(&item->hlist, &hlist->hash[bucket])` for a new item. -/
def hlist_add_head (hlist : khashmap) (bucket : Nat) (item : khashmap_item) :
    Option khashmap :=
  match hlist.hash with
  | none => none
  | some arr =>
    match arr[bucket]? with
    | none => none
    | some chain => some { hlist with hash := some (arr.set bucket (item :: chain)) }

/-- The call `hlist_del(&item->hlist)`. -/
def hlist_del (hlist : khashmap) (item : item_ptr) : Option khashmap :=
  match hlist.hash with
  | none => none
  | some arr =>
    match arr[item.bucket]? with
    | none => none
    | some chain =>
      if item.pos < chain.length then
        some { hlist with hash := some (arr.set item.bucket (chain.eraseIdx item.pos)) }
      else none

/-- The function `khashmap_find`. -/
def khashmap_find (K : Kernel) (hlist : khashmap) (key : Nat) : Option Nat :=
  match khashmap_find_item K hlist key with
  | none => none
  | some none => some NULL
  | some (some item) => (item_read hlist item).map (·.val)

/-- The function `khashmap_add`. `zalloc` is the outcome of
`kmem_cache_zalloc(hlist_cachep, flags)` should the call be made: `true` for a new
item, `false` for `NULL`. The result is the return value and the map after the call. -/
def khashmap_add (K : Kernel) (hlist : khashmap) (key val : Nat) (zalloc : Bool) :
    Option (Int × khashmap) :=
  match khashmap_find_item K hlist key with
  | none => none
  | some (some item) => (item_set_val hlist item val).map fun h => (0, h)
  | some none =>
    if zalloc then
      (hlist_add_head hlist (khashmap_hashfn K hlist key) { key := key, val := val }).map
        fun h => (0, h)
    else some (-ENOMEM, hlist)

/-- The function `khashmap_del`. -/
def khashmap_del (K : Kernel) (hlist : khashmap) (key : Nat) : Option khashmap :=
  match khashmap_find_item K hlist key with
  | none => none
  | some none => some hlist
  | some (some item) => hlist_del hlist item

/-- The loop of `khashmap_alloc` that runs `INIT_HLIST_HEAD(&hlist->hash[i])`, with
`n` heads still to write and the `int` counter at `i`. -/
def khashmap_alloc_loop : Nat → Nat → List hlist_head → Option (List hlist_head)
  | 0, _, arr => some arr
  | n + 1, i, arr =>
    if i < arr.length then
      if i + 1 ≤ INT_MAX then khashmap_alloc_loop n (i + 1) (arr.set i []) else none
    else none

/-- The function `khashmap_alloc`. -/
def khashmap_alloc (K : Kernel) (hlist : khashmap) : Option (Int × khashmap) :=
  match khashmap_size_in_bytes hlist with
  | none => none
  | some size =>
    match (if size < K.PAGE_SIZE then K.kmalloc size else K.vmalloc size) with
    | none => some (-ENOMEM, { hlist with hash := none })
    | some stale =>
      match khashmap_size hlist with
      | none => none
      | some n =>
        (khashmap_alloc_loop n 0 ((List.range (size / sizeof_hlist_head)).map stale)).map
          fun arr => (0, { hlist with hash := some arr })

/-- The function `khashmap_init`. -/
def khashmap_init (K : Kernel) (hlist : khashmap) : Option (Int × khashmap) :=
  khashmap_alloc K hlist

/-! ## Sequences of operations -/

/-- A call of `khashmap_add` (with the outcome of its allocation) or of
`khashmap_del`. -/
inductive khashmap_op where
  | add (key val : Nat) (zalloc : Bool)
  | del (key : Nat)
deriving DecidableEq, Repr

/-- The key a call names. -/
def khashmap_op.key : khashmap_op → Nat
  | .add key _ _ => key
  | .del key => key

/-- The map after one call. -/
def khashmap_step (K : Kernel) (hlist : khashmap) : khashmap_op → Option khashmap
  | .add key val zalloc => (khashmap_add K hlist key val zalloc).map (·.2)
  | .del key => khashmap_del K hlist key

/-- The map after a sequence of calls, first call first. -/
def khashmap_run (K : Kernel) (hlist : khashmap) : List khashmap_op → Option khashmap
  | [] => some hlist
  | op :: ops => (khashmap_step K hlist op).bind fun h => khashmap_run K h ops

/-- All the items of a map, bucket after bucket. -/
def khashmap_items (hlist : khashmap) : List khashmap_item :=
  match hlist.hash with
  | none => []
  | some arr => arr.flatten

/-- The spec-level view of `item->val = val` on every item of a chain with the key. -/
def chain_replace (key val : Nat) (chain : hlist_head) : hlist_head :=
  chain.map fun it => if it.key = key then { it with val := val } else it

/-- The spec-level view of unlinking every item of a chain with the key. -/
def chain_remove (key : Nat) (chain : hlist_head) : hlist_head :=
  chain.filter fun it => !decide (it.key = key)

/-- The first item of a chain with the key. -/
def chain_lookup (key : Nat) (chain : hlist_head) : Option khashmap_item :=
  chain.find? fun it => decide (it.key = key)

/-- The value `khashmap_find` reads off a chain: that of the first item with the key,
`NULL` when there is none. -/
def chain_val (key : Nat) (chain : hlist_head) : Nat :=
  match chain_lookup key chain with
  | none => NULL
  | some it => it.val

/-- The chain of the bucket a key hashes to, `none` when there is no such bucket. -/
def khashmap_bucket (K : Kernel) (hlist : khashmap) (key : Nat) : Option hlist_head :=
  hlist.hash.bind fun arr => arr[khashmap_hashfn K hlist key]?

/-- Whether an item with the key is linked on some chain of the map. -/
def khashmap_stored (hlist : khashmap) (key : Nat) : Bool :=
  (khashmap_items hlist).any fun it => decide (it.key = key)

/-- The state of a map between two calls, `arr` being its bucket array: the array has
`1UL << bits` heads and an `int` counts them, `hash_long` yields an index into it, every
item is on the chain of the bucket its key hashes to, and no chain has a key twice. -/
structure khashmap_inv (K : Kernel) (hlist : khashmap) (arr : List hlist_head) : Prop where
  hash_eq : hlist.hash = some arr
  size_eq : arr.length = 2 ^ hlist.bits
  bits_le : hlist.bits ≤ 30
  range : ∀ val, K.hash_long val hlist.bits < 2 ^ hlist.bits
  placed : ∀ i chain, arr[i]? = some chain →
    ∀ it ∈ chain, khashmap_hashfn K hlist it.key = i
  nodup : ∀ chain ∈ arr, (chain.map (·.key)).Nodup

/-- A map after `khashmap_init` with `bits = 2`. -/
def exampleFresh : khashmap :=
  { bits := 2, hash := some [[], [], [], []] }

/-- A map of four buckets with the keys 21 and 5 on the chain of bucket 1. -/
def exampleMap : khashmap :=
  { bits := 2, hash := some [[], [⟨21, 8⟩, ⟨5, 7⟩], [], []] }

/-- The calls that lead from `exampleFresh` to `exampleMap`. -/
def exampleOps : List khashmap_op :=
  [.add 5 7 true, .add 21 8 true, .add 6 1 false, .del 3]

/-- The map after `khashmap_add(5, NULL)` on `exampleFresh`. -/
def exampleNull : khashmap :=
  { bits := 2, hash := some [[], [⟨5, NULL⟩], [], []] }

/-- Whether a call is a `khashmap_add` of the key. -/
def khashmap_op.adds (k : Nat) : khashmap_op → Bool
  | .add key _ _ => decide (key = k)
  | .del _ => false

/-- The last call of a sequence that names the key. -/
def khashmap_last_op (k : Nat) (ops : List khashmap_op) : Option khashmap_op :=
  (ops.filter fun op => decide (op.key = k)).getLast?

/-- A kernel for examples: 4096-byte pages, `hash_long val bits = val % 2 ^ bits`,
allocations that succeed and return stale memory. -/
def exampleKernel : Kernel :=
  { hash_long := fun val bits => val % 2 ^ bits
    PAGE_SIZE := 4096
    kmalloc := fun _ => some fun i => [{ key := i, val := 1 }]
    vmalloc := fun _ => some fun i => [{ key := i, val := 1 }] }

/-! ## Traversal, release and destruction -/

/-- The loop of the macro `khashmap_for_each_entry` with a body that only reads the
item: the items the body is run on, in order, with `n` buckets still to visit and the
`int` counter at `pos`. -/
def khashmap_for_each_entry_loop (hlist : khashmap) : Nat → Nat → Option (List khashmap_item)
  | 0, _ => some []
  | n + 1, pos =>
    match hlist.hash with
    | none => none
    | some arr =>
      match arr[pos]? with
      | none => none
      | some chain =>
        if pos + 1 ≤ INT_MAX then
          (khashmap_for_each_entry_loop hlist n (pos + 1)).map fun rest => chain ++ rest
        else none

/-- The macro `khashmap_for_each_entry`, as in `hash_dump`: the sequence of items it
yields. -/
def khashmap_for_each_entry (hlist : khashmap) : Option (List khashmap_item) :=
  match khashmap_size hlist with
  | none => none
  | some size => khashmap_for_each_entry_loop hlist size 0

/-- The macro `hlist_for_each_entry_safe` over one chain, with a body that unlinks and
frees the current item when `unlink item` holds: the link to the next node is read
before the body runs and the walk goes on from it. The result is the items the body was
run on, in order, and the chain that is left. -/
def hlist_for_each_entry_safe (unlink : khashmap_item → Bool) :
    hlist_head → List khashmap_item × hlist_head
  | [] => ([], [])
  | item :: next =>
    let r := hlist_for_each_entry_safe unlink next
    (item :: r.1, if unlink item then r.2 else item :: r.2)

/-- The loop of the macro `khashmap_for_each_entry_safe` with such a body, with `n`
buckets still to visit and the `int` counter at `pos`: the items the body was run on
and the map that is left. -/
def khashmap_for_each_entry_safe_loop (unlink : khashmap_item → Bool) :
    Nat → Nat → khashmap → Option (List khashmap_item × khashmap)
  | 0, _, hlist => some ([], hlist)
  | n + 1, pos, hlist =>
    match hlist.hash with
    | none => none
    | some arr =>
      match arr[pos]? with
      | none => none
      | some chain =>
        if pos + 1 ≤ INT_MAX then
          (khashmap_for_each_entry_safe_loop unlink n (pos + 1)
            { hlist with hash := some (arr.set pos (hlist_for_each_entry_safe unlink chain).2) }).map
            fun r => ((hlist_for_each_entry_safe unlink chain).1 ++ r.1, r.2)
        else none

/-- The macro `khashmap_for_each_entry_safe`. -/
def khashmap_for_each_entry_safe (unlink : khashmap_item → Bool) (hlist : khashmap) :
    Option (List khashmap_item × khashmap) :=
  match khashmap_size hlist with
  | none => none
  | some size => khashmap_for_each_entry_safe_loop unlink size 0 hlist

/-- A call into the kernel allocators: the allocation of a bucket array of `size`
bytes, the release of the block `hash` points to (`none` for `NULL`), the release of an
item to `hlist_cachep`. -/
inductive kernel_call where
  | kmalloc (size : Nat)
  | vmalloc (size : Nat)
  | kfree (hash : Option (List hlist_head))
  | vfree (hash : Option (List hlist_head))
  | kmem_cache_free (item : khashmap_item)
deriving DecidableEq, Repr

/-- The allocation call of `khashmap_alloc`: the branch on `size < PAGE_SIZE`. -/
def khashmap_alloc_call (K : Kernel) (hlist : khashmap) : Option kernel_call :=
  match khashmap_size_in_bytes hlist with
  | none => none
  | some size => if size < K.PAGE_SIZE then some (.kmalloc size) else some (.vmalloc size)

/-- The function `khashmap_free`: the call it makes. -/
def khashmap_free (K : Kernel) (hlist : khashmap) : Option kernel_call :=
  match khashmap_size_in_bytes hlist with
  | none => none
  | some size => if size < K.PAGE_SIZE then some (.kfree hlist.hash) else some (.vfree hlist.hash)

/-- The function `khashmap_destroy`; the argument is `none` for a null map pointer. The
result is the map object after the call (`none` when there is none) and the release
calls made, in order. `hash` is not assigned: after the call it still holds the address
of the bucket array, which the last call has released. -/
def khashmap_destroy (K : Kernel) (hlist : Option khashmap) :
    Option (Option khashmap × List kernel_call) :=
  match hlist with
  | none => some (none, [])
  | some h =>
    match khashmap_for_each_entry_safe (fun _ => true) h with
    | none => none
    | some (freed, h') =>
      match khashmap_free K h' with
      | none => none
      | some call => some (some h', freed.map kernel_call.kmem_cache_free ++ [call])

/-- Whether a release call goes to the allocator an allocation call came from. -/
def kernel_call.releases : kernel_call → kernel_call → Bool
  | .kfree _, .kmalloc _ => true
  | .vfree _, .vmalloc _ => true
  | _, _ => false

/-- The answer of the kernel to an allocation call of the bucket array. -/
def Kernel.answer (K : Kernel) : kernel_call → Option (Nat → hlist_head)
  | .kmalloc size => K.kmalloc size
  | .vmalloc size => K.vmalloc size
  | _ => none

/-- Modelled from the spec: `hash_long` of `linux/hash.h`, which is not in the
repository. The spec (4.2) has `bucket_index = hash(key) mod 2^exponent` for a
bit-mixing function seeded by the exponent whose constants it leaves open; `mix` is
that function. -/
def spec_hash_long (mix : Nat → Nat → Nat) (val bits : Nat) : Nat :=
  mix val bits % 2 ^ bits

/-- The calls `khashmap_add(key, val)` for a list of pairs, every allocation
succeeding. -/
def khashmap_adds (kvs : List (Nat × Nat)) : List khashmap_op :=
  kvs.map fun kv => khashmap_op.add kv.1 kv.2 true

/-- A kernel with 16-byte pages, in which only `vmalloc` succeeds; `hash_long` is that
of `exampleKernel`. -/
def exampleKernelVmalloc : Kernel :=
  { hash_long := fun val bits => val % 2 ^ bits
    PAGE_SIZE := 16
    kmalloc := fun _ => none
    vmalloc := fun _ => some fun _ => [] }

/-! ## Chains -/

theorem hlist_scan_eq_none {key : Nat} {chain : hlist_head} :
    hlist_scan key chain = none ↔ ∀ it ∈ chain, it.key ≠ key := by
  induction chain with
  | nil => simp [hlist_scan]
  | cons it rest ih =>
    by_cases hk : it.key = key
    · simp [hlist_scan, hk]
    · simp [hlist_scan, hk, ih]

theorem hlist_scan_eq_some {key p : Nat} {chain : hlist_head}
    (h : hlist_scan key chain = some p) :
    ∃ it, chain[p]? = some it ∧ it.key = key := by
  induction chain generalizing p with
  | nil => simp [hlist_scan] at h
  | cons it rest ih =>
    by_cases hk : it.key = key
    · simp [hlist_scan, hk] at h
      subst h
      exact ⟨it, by simp, hk⟩
    · simp [hlist_scan, hk] at h
      obtain ⟨q, hq, rfl⟩ := h
      obtain ⟨it', h1, h2⟩ := ih hq
      exact ⟨it', by simpa using h1, h2⟩

theorem hlist_scan_lookup (key : Nat) (chain : hlist_head) :
    (hlist_scan key chain).bind (fun p => chain[p]?) = chain_lookup key chain := by
  induction chain with
  | nil => simp [hlist_scan, chain_lookup]
  | cons it rest ih =>
    by_cases hk : it.key = key
    · simp [hlist_scan, chain_lookup, hk]
    · simp only [chain_lookup] at ih
      simp [hlist_scan, chain_lookup, hk, ← ih]
      cases hlist_scan key rest <;> simp

theorem chain_lookup_eq_none {key : Nat} {chain : hlist_head} :
    chain_lookup key chain = none ↔ ∀ it ∈ chain, it.key ≠ key := by
  simp [chain_lookup]

theorem chain_lookup_eq_some {key : Nat} {chain : hlist_head} {it : khashmap_item}
    (h : chain_lookup key chain = some it) : it ∈ chain ∧ it.key = key := by
  unfold chain_lookup at h
  exact ⟨List.mem_of_find?_eq_some h, by simpa using List.find?_some h⟩

theorem chain_lookup_set_self {key p val : Nat} {chain : hlist_head} {it : khashmap_item}
    (hs : hlist_scan key chain = some p) (hp : chain[p]? = some it) :
    chain_lookup key (chain.set p { it with val := val }) = some { it with val := val } := by
  induction chain generalizing p with
  | nil => simp [hlist_scan] at hs
  | cons a rest ih =>
    by_cases hk : a.key = key
    · simp [hlist_scan, hk] at hs
      subst hs
      simp at hp
      subst hp
      simp [chain_lookup, hk]
    · simp [hlist_scan, hk] at hs
      obtain ⟨q, hq, rfl⟩ := hs
      simp at hp
      have := ih hq hp
      simp only [chain_lookup] at this
      simp [chain_lookup, hk, this]

theorem chain_lookup_set_other {key key' p val : Nat} {chain : hlist_head}
    {it : khashmap_item} (hp : chain[p]? = some it) (hit : it.key = key)
    (hne : key ≠ key') :
    chain_lookup key' (chain.set p { it with val := val }) = chain_lookup key' chain := by
  induction chain generalizing p with
  | nil => simp
  | cons a rest ih =>
    cases p with
    | zero =>
      simp at hp
      subst hp
      have h1 : ¬ a.key = key' := by rw [hit]; exact hne
      simp [chain_lookup, h1]
    | succ q =>
      simp at hp
      have := ih hp
      simp only [chain_lookup] at this
      by_cases hk : a.key = key'
      · simp [chain_lookup, hk]
      · simp [chain_lookup, hk, this]

theorem chain_lookup_eraseIdx_other {key key' p : Nat} {chain : hlist_head}
    {it : khashmap_item} (hp : chain[p]? = some it) (hit : it.key = key)
    (hne : key ≠ key') :
    chain_lookup key' (chain.eraseIdx p) = chain_lookup key' chain := by
  induction chain generalizing p with
  | nil => simp
  | cons a rest ih =>
    cases p with
    | zero =>
      simp at hp
      subst hp
      have h1 : ¬ a.key = key' := by rw [hit]; exact hne
      simp [chain_lookup, h1]
    | succ q =>
      simp at hp
      have := ih hp
      simp only [chain_lookup] at this
      by_cases hk : a.key = key'
      · simp [chain_lookup, hk]
      · simp [chain_lookup, hk, this]

theorem chain_replace_of_absent {key val : Nat} {chain : hlist_head}
    (h : ∀ it ∈ chain, it.key ≠ key) : chain_replace key val chain = chain := by
  induction chain with
  | nil => rfl
  | cons a rest ih =>
    have h1 : ¬ a.key = key := h a (by simp)
    have h2 := ih fun it hit => h it (by simp [hit])
    simp only [chain_replace] at h2
    simp [chain_replace, h1, h2]

theorem chain_remove_of_absent {key : Nat} {chain : hlist_head}
    (h : ∀ it ∈ chain, it.key ≠ key) : chain_remove key chain = chain := by
  simp only [chain_remove, List.filter_eq_self]
  intro it hit
  simpa using h it hit

theorem chain_set_eq_replace {key p val : Nat} {chain : hlist_head} {it : khashmap_item}
    (hs : hlist_scan key chain = some p) (hp : chain[p]? = some it)
    (hnd : (chain.map (·.key)).Nodup) :
    chain.set p { it with val := val } = chain_replace key val chain := by
  induction chain generalizing p with
  | nil => simp [hlist_scan] at hs
  | cons a rest ih =>
    simp only [List.map_cons, List.nodup_cons, List.mem_map, not_exists, not_and] at hnd
    by_cases hk : a.key = key
    · simp [hlist_scan, hk] at hs
      subst hs
      simp at hp
      subst hp
      have hrest : chain_replace key val rest = rest :=
        chain_replace_of_absent fun x hx hxk => hnd.1 x hx (hxk.trans hk.symm)
      simp only [chain_replace] at hrest
      simp [chain_replace, hk, hrest]
    · simp [hlist_scan, hk] at hs
      obtain ⟨q, hq, rfl⟩ := hs
      simp at hp
      have := ih hq hp hnd.2
      simp only [chain_replace] at this
      simp [chain_replace, hk, this]

theorem chain_eraseIdx_eq_remove {key p : Nat} {chain : hlist_head}
    (hs : hlist_scan key chain = some p) (hnd : (chain.map (·.key)).Nodup) :
    chain.eraseIdx p = chain_remove key chain := by
  induction chain generalizing p with
  | nil => simp [hlist_scan] at hs
  | cons a rest ih =>
    simp only [List.map_cons, List.nodup_cons, List.mem_map, not_exists, not_and] at hnd
    by_cases hk : a.key = key
    · simp [hlist_scan, hk] at hs
      subst hs
      have hrest : chain_remove key rest = rest :=
        chain_remove_of_absent fun x hx hxk => hnd.1 x hx (hxk.trans hk.symm)
      simp only [chain_remove] at hrest
      simp [chain_remove, hk, hrest]
    · simp [hlist_scan, hk] at hs
      obtain ⟨q, hq, rfl⟩ := hs
      have := ih hq hnd.2
      simp only [chain_remove] at this
      simp [chain_remove, hk, this]

/-! ## The operations in terms of chains -/

theorem khashmap_find_eq (K : Kernel) (h : khashmap) (key : Nat) :
    khashmap_find K h key = (khashmap_bucket K h key).map (chain_val key) := by
  unfold khashmap_find khashmap_find_item khashmap_bucket
  cases harr : h.hash with
  | none => simp
  | some arr =>
    cases hb : arr[khashmap_hashfn K h key]? with
    | none => simp [hb]
    | some chain =>
      have hl := hlist_scan_lookup key chain
      cases hs : hlist_scan key chain with
      | none =>
        rw [hs] at hl
        simp only [Option.none_bind] at hl
        simp [hb, hs, chain_val, ← hl]
      | some p =>
        rw [hs] at hl
        simp only [Option.some_bind] at hl
        obtain ⟨it, hit, -⟩ := hlist_scan_eq_some hs
        simp [hb, hs, chain_val, ← hl, item_read, harr, hit]

/-- What a call of `khashmap_add` that returns did, read off the chain of its bucket. -/
theorem khashmap_add_cases {K : Kernel} {h h' : khashmap} {key val : Nat} {zalloc : Bool}
    {r : Int} (hadd : khashmap_add K h key val zalloc = some (r, h')) :
    ∃ arr chain, h.hash = some arr ∧ arr[khashmap_hashfn K h key]? = some chain ∧
      ((∃ p it, hlist_scan key chain = some p ∧ chain[p]? = some it ∧ r = 0 ∧
          h' = { h with hash := some (arr.set (khashmap_hashfn K h key)
            (chain.set p { it with val := val })) }) ∨
       (hlist_scan key chain = none ∧ zalloc = true ∧ r = 0 ∧
          h' = { h with hash := some (arr.set (khashmap_hashfn K h key)
            ({ key := key, val := val } :: chain)) }) ∨
       (hlist_scan key chain = none ∧ zalloc = false ∧ r = -ENOMEM ∧ h' = h)) := by
  unfold khashmap_add khashmap_find_item at hadd
  cases harr : h.hash with
  | none => simp [harr] at hadd
  | some arr =>
    cases hb : arr[khashmap_hashfn K h key]? with
    | none => simp [harr, hb] at hadd
    | some chain =>
      refine ⟨arr, chain, rfl, hb, ?_⟩
      cases hs : hlist_scan key chain with
      | none =>
        cases zalloc with
        | false =>
          simp [harr, hb, hs] at hadd
          exact Or.inr (Or.inr ⟨rfl, rfl, hadd.1.symm, hadd.2.symm⟩)
        | true =>
          simp [harr, hb, hs, hlist_add_head] at hadd
          exact Or.inr (Or.inl ⟨rfl, rfl, hadd.1.symm, hadd.2.symm⟩)
      | some p =>
        obtain ⟨it, hit, -⟩ := hlist_scan_eq_some hs
        simp [harr, hb, hs, item_set_val, hit] at hadd
        exact Or.inl ⟨p, it, rfl, hit, hadd.1.symm, hadd.2.symm⟩

/-- What a call of `khashmap_del` that returns did, read off the chain of its bucket. -/
theorem khashmap_del_cases {K : Kernel} {h h' : khashmap} {key : Nat}
    (hdel : khashmap_del K h key = some h') :
    ∃ arr chain, h.hash = some arr ∧ arr[khashmap_hashfn K h key]? = some chain ∧
      ((∃ p it, hlist_scan key chain = some p ∧ chain[p]? = some it ∧ it.key = key ∧
          h' = { h with hash := some (arr.set (khashmap_hashfn K h key)
            (chain.eraseIdx p)) }) ∨
       (hlist_scan key chain = none ∧ h' = h)) := by
  unfold khashmap_del khashmap_find_item at hdel
  cases harr : h.hash with
  | none => simp [harr] at hdel
  | some arr =>
    cases hb : arr[khashmap_hashfn K h key]? with
    | none => simp [harr, hb] at hdel
    | some chain =>
      refine ⟨arr, chain, rfl, hb, ?_⟩
      cases hs : hlist_scan key chain with
      | none =>
        simp [harr, hb, hs] at hdel
        exact Or.inr ⟨rfl, hdel.symm⟩
      | some p =>
        obtain ⟨it, hit, hk⟩ := hlist_scan_eq_some hs
        have hlt : p < chain.length := (List.getElem?_eq_some.mp hit).1
        simp [harr, hb, hs, hlist_del, hlt] at hdel
        exact Or.inl ⟨p, it, rfl, hit, hk, hdel.symm⟩

/-- The bucket of a key after the chain of one bucket was rewritten. -/
theorem khashmap_bucket_set (K : Kernel) (h : khashmap) (arr : List hlist_head)
    (b : Nat) (chain new : hlist_head) (hb : arr[b]? = some chain) (key : Nat) :
    khashmap_bucket K { h with hash := some (arr.set b new) } key =
      if khashmap_hashfn K h key = b then some new else arr[khashmap_hashfn K h key]? := by
  have hlt : b < arr.length := (List.getElem?_eq_some.mp hb).1
  have hfn : khashmap_hashfn K { h with hash := some (arr.set b new) } key =
      khashmap_hashfn K h key := rfl
  by_cases hk : khashmap_hashfn K h key = b
  · simp only [khashmap_bucket, Option.some_bind, hfn, hk, if_true]
    exact List.getElem?_set_self hlt
  · have hk' : b ≠ khashmap_hashfn K h key := fun e => hk e.symm
    simp only [khashmap_bucket, Option.some_bind, hfn, hk, if_false]
    exact List.getElem?_set_ne hk'

/-! ## The invariant -/

theorem khashmap_stored_iff {h : khashmap} {key : Nat} :
    khashmap_stored h key = true ↔ ∃ it ∈ khashmap_items h, it.key = key := by
  simp [khashmap_stored]

theorem khashmap_stored_eq_false {h : khashmap} {key : Nat} :
    khashmap_stored h key = false ↔ ∀ it ∈ khashmap_items h, it.key ≠ key := by
  simp [khashmap_stored]

theorem set_eq_map_of_fix {f : hlist_head → hlist_head} {arr : List hlist_head} {b : Nat}
    {chain : hlist_head} (hb : arr[b]? = some chain)
    (hfix : ∀ i c, arr[i]? = some c → i ≠ b → f c = c) :
    arr.set b (f chain) = arr.map f := by
  have hlt : b < arr.length := (List.getElem?_eq_some.mp hb).1
  apply List.ext_getElem?
  intro n
  by_cases hn : n = b
  · subst hn
    rw [List.getElem?_set_self hlt, List.getElem?_map, hb]
    rfl
  · rw [List.getElem?_set_ne (fun e => hn e.symm), List.getElem?_map]
    cases hc : arr[n]? with
    | none => rfl
    | some c => simp [hfix n c hc hn]

theorem khashmap_inv.bucket {K : Kernel} {h : khashmap} {arr : List hlist_head}
    (hinv : khashmap_inv K h arr) (key : Nat) :
    ∃ chain, arr[khashmap_hashfn K h key]? = some chain := by
  have hlt : khashmap_hashfn K h key < arr.length := by
    rw [hinv.size_eq]
    exact hinv.range _
  exact ⟨arr[khashmap_hashfn K h key], List.getElem?_eq_getElem hlt⟩

theorem khashmap_inv.items {K : Kernel} {h : khashmap} {arr : List hlist_head}
    (hinv : khashmap_inv K h arr) : khashmap_items h = arr.flatten := by
  simp [khashmap_items, hinv.hash_eq]

/-- Under the invariant a key is stored exactly when the scan of its bucket finds it. -/
theorem khashmap_inv.stored_iff_scan {K : Kernel} {h : khashmap} {arr : List hlist_head}
    (hinv : khashmap_inv K h arr) {key : Nat} {chain : hlist_head}
    (hb : arr[khashmap_hashfn K h key]? = some chain) :
    khashmap_stored h key = false ↔ hlist_scan key chain = none := by
  rw [khashmap_stored_eq_false, hinv.items, hlist_scan_eq_none]
  constructor
  · intro hall it hit
    exact hall it (List.mem_flatten.mpr ⟨chain, List.mem_iff_getElem?.mpr ⟨_, hb⟩, hit⟩)
  · intro hall it hit hk
    obtain ⟨c, hc, hitc⟩ := List.mem_flatten.mp hit
    obtain ⟨i, hi⟩ := List.mem_iff_getElem?.mp hc
    have := hinv.placed i c hi it hitc
    rw [hk] at this
    rw [this] at hb
    rw [hi] at hb
    cases hb
    exact hall it hitc hk

/-- Chains of other buckets hold no item with the key. -/
theorem khashmap_inv.absent_elsewhere {K : Kernel} {h : khashmap} {arr : List hlist_head}
    (hinv : khashmap_inv K h arr) (key : Nat) (i : Nat) (c : hlist_head)
    (hi : arr[i]? = some c) (hne : i ≠ khashmap_hashfn K h key) :
    ∀ it ∈ c, it.key ≠ key := by
  intro it hit hk
  have := hinv.placed i c hi it hit
  rw [hk] at this
  exact hne this.symm

theorem chain_replace_keys (key val : Nat) (chain : hlist_head) :
    (chain_replace key val chain).map (·.key) = chain.map (·.key) := by
  induction chain with
  | nil => rfl
  | cons a rest ih =>
    simp only [chain_replace] at ih
    by_cases hk : a.key = key
    · simp [chain_replace, hk, ih]
    · simp [chain_replace, hk, ih]

theorem khashmap_inv.add_stored {K : Kernel} {h : khashmap} {arr : List hlist_head}
    (hinv : khashmap_inv K h arr) {key : Nat} (hst : khashmap_stored h key = true)
    (val : Nat) (zalloc : Bool) :
    khashmap_add K h key val zalloc =
      some (0, { h with hash := some (arr.map (chain_replace key val)) }) := by
  obtain ⟨chain, hb⟩ := hinv.bucket key
  cases hs : hlist_scan key chain with
  | none =>
    rw [(hinv.stored_iff_scan hb).mpr hs] at hst
    cases hst
  | some p =>
    obtain ⟨it, hit, -⟩ := hlist_scan_eq_some hs
    have hnd := hinv.nodup chain (List.mem_iff_getElem?.mpr ⟨_, hb⟩)
    have hset := set_eq_map_of_fix (f := chain_replace key val) hb fun i c hi hne =>
      chain_replace_of_absent (hinv.absent_elsewhere key i c hi hne)
    rw [← chain_set_eq_replace hs hit hnd] at hset
    simp [khashmap_add, khashmap_find_item, hinv.hash_eq, hb, hs, item_set_val, hit, hset]

theorem khashmap_inv.add_fresh {K : Kernel} {h : khashmap} {arr : List hlist_head}
    (hinv : khashmap_inv K h arr) {key : Nat} (hst : khashmap_stored h key = false)
    {chain : hlist_head} (hb : arr[khashmap_hashfn K h key]? = some chain) (val : Nat) :
    khashmap_add K h key val true =
      some (0, { h with hash := some (arr.set (khashmap_hashfn K h key)
        ({ key := key, val := val } :: chain)) }) := by
  have hs := (hinv.stored_iff_scan hb).mp hst
  simp [khashmap_add, khashmap_find_item, hinv.hash_eq, hb, hs, hlist_add_head]

theorem khashmap_inv.add_fail {K : Kernel} {h : khashmap} {arr : List hlist_head}
    (hinv : khashmap_inv K h arr) {key : Nat} (hst : khashmap_stored h key = false)
    (val : Nat) : khashmap_add K h key val false = some (-ENOMEM, h) := by
  obtain ⟨chain, hb⟩ := hinv.bucket key
  have hs := (hinv.stored_iff_scan hb).mp hst
  simp [khashmap_add, khashmap_find_item, hinv.hash_eq, hb, hs]

theorem khashmap_inv.del_eq {K : Kernel} {h : khashmap} {arr : List hlist_head}
    (hinv : khashmap_inv K h arr) (key : Nat) :
    khashmap_del K h key = some { h with hash := some (arr.map (chain_remove key)) } := by
  obtain ⟨chain, hb⟩ := hinv.bucket key
  have hset := set_eq_map_of_fix (f := chain_remove key) hb fun i c hi hne =>
    chain_remove_of_absent (hinv.absent_elsewhere key i c hi hne)
  cases hs : hlist_scan key chain with
  | none =>
    rw [chain_remove_of_absent (hlist_scan_eq_none.mp hs)] at hset
    have hself : arr.set (khashmap_hashfn K h key) chain = arr := by
      apply List.ext_getElem?
      intro n
      by_cases hn : khashmap_hashfn K h key = n
      · subst hn
        rw [List.getElem?_set_self (List.getElem?_eq_some.mp hb).1, hb]
      · rw [List.getElem?_set_ne hn]
    rw [hself] at hset
    simp only [khashmap_del, khashmap_find_item, hinv.hash_eq, hb, hs, Option.map_none']
    rw [← hset, ← hinv.hash_eq]
  | some p =>
    obtain ⟨it, hit, -⟩ := hlist_scan_eq_some hs
    have hlt : p < chain.length := (List.getElem?_eq_some.mp hit).1
    have hnd := hinv.nodup chain (List.mem_iff_getElem?.mpr ⟨_, hb⟩)
    rw [← chain_eraseIdx_eq_remove hs hnd] at hset
    simp [khashmap_del, khashmap_find_item, hinv.hash_eq, hb, hs, hlist_del, hlt, hset]

theorem khashmap_inv.replace {K : Kernel} {h : khashmap} {arr : List hlist_head}
    (hinv : khashmap_inv K h arr) (key val : Nat) :
    khashmap_inv K { h with hash := some (arr.map (chain_replace key val)) }
      (arr.map (chain_replace key val)) where
  hash_eq := rfl
  size_eq := by simpa using hinv.size_eq
  bits_le := hinv.bits_le
  range := hinv.range
  placed := by
    intro i c' hi it' hit'
    rw [List.getElem?_map] at hi
    cases hc : arr[i]? with
    | none => simp [hc] at hi
    | some c =>
      simp only [hc, Option.map_some', Option.some.injEq] at hi
      subst hi
      simp only [chain_replace, List.mem_map] at hit'
      obtain ⟨it, hit, rfl⟩ := hit'
      have := hinv.placed i c hc it hit
      by_cases hk : it.key = key
      · simpa [hk, khashmap_hashfn] using this
      · simpa [hk, khashmap_hashfn] using this
  nodup := by
    intro c' hc'
    obtain ⟨c, hc, rfl⟩ := List.mem_map.mp hc'
    rw [chain_replace_keys]
    exact hinv.nodup c hc

theorem khashmap_inv.remove {K : Kernel} {h : khashmap} {arr : List hlist_head}
    (hinv : khashmap_inv K h arr) (key : Nat) :
    khashmap_inv K { h with hash := some (arr.map (chain_remove key)) }
      (arr.map (chain_remove key)) where
  hash_eq := rfl
  size_eq := by simpa using hinv.size_eq
  bits_le := hinv.bits_le
  range := hinv.range
  placed := by
    intro i c' hi it hit
    rw [List.getElem?_map] at hi
    cases hc : arr[i]? with
    | none => simp [hc] at hi
    | some c =>
      simp only [hc, Option.map_some', Option.some.injEq] at hi
      subst hi
      exact hinv.placed i c hc it (List.mem_of_mem_filter hit)
  nodup := by
    intro c' hc'
    obtain ⟨c, hc, rfl⟩ := List.mem_map.mp hc'
    exact List.Nodup.sublist (List.Sublist.map _ (List.filter_sublist c)) (hinv.nodup c hc)

theorem khashmap_inv.insert {K : Kernel} {h : khashmap} {arr : List hlist_head}
    (hinv : khashmap_inv K h arr) {key : Nat} (hst : khashmap_stored h key = false)
    {chain : hlist_head} (hb : arr[khashmap_hashfn K h key]? = some chain) (val : Nat) :
    khashmap_inv K
      { h with hash := some (arr.set (khashmap_hashfn K h key)
        ({ key := key, val := val } :: chain)) }
      (arr.set (khashmap_hashfn K h key) ({ key := key, val := val } :: chain)) where
  hash_eq := rfl
  size_eq := by simpa using hinv.size_eq
  bits_le := hinv.bits_le
  range := hinv.range
  placed := by
    intro i c' hi it hit
    have hlt : khashmap_hashfn K h key < arr.length := (List.getElem?_eq_some.mp hb).1
    by_cases hn : khashmap_hashfn K h key = i
    · subst hn
      rw [List.getElem?_set_self hlt] at hi
      cases hi
      rcases List.mem_cons.mp hit with rfl | hit
      · rfl
      · exact hinv.placed _ chain hb it hit
    · rw [List.getElem?_set_ne hn] at hi
      exact hinv.placed i c' hi it hit
  nodup := by
    intro c' hc'
    rcases List.mem_or_eq_of_mem_set hc' with hc | rfl
    · exact hinv.nodup c' hc
    · have hs := hlist_scan_eq_none.mp ((hinv.stored_iff_scan hb).mp hst)
      simp only [List.map_cons, List.nodup_cons, List.mem_map, not_exists, not_and]
      exact ⟨fun it hit => hs it hit, hinv.nodup chain (List.mem_iff_getElem?.mpr ⟨_, hb⟩)⟩

/-! ## Initialization -/

theorem khashmap_alloc_loop_spec (n : Nat) :
    ∀ (i : Nat) (arr arr' : List hlist_head), khashmap_alloc_loop n i arr = some arr' →
      arr'.length = arr.length ∧ (n ≠ 0 → i + n ≤ arr.length ∧ i + n ≤ INT_MAX) ∧
      (∀ j, i ≤ j → j < i + n → arr'[j]? = some []) ∧
      (∀ j, j < i → arr'[j]? = arr[j]?) := by
  induction n with
  | zero =>
    intro i arr arr' h
    simp only [khashmap_alloc_loop, Option.some.injEq] at h
    subst h
    exact ⟨rfl, fun h => absurd rfl h, fun j h1 h2 => by omega, fun _ _ => rfl⟩
  | succ n ih =>
    intro i arr arr' h
    unfold khashmap_alloc_loop at h
    by_cases h1 : i < arr.length
    · by_cases h2 : i + 1 ≤ INT_MAX
      · simp only [h1, h2, if_true] at h
        obtain ⟨hl, hb, hz, hk⟩ := ih (i + 1) (arr.set i []) arr' h
        rw [List.length_set] at hl hb
        refine ⟨hl, fun _ => ?_, ?_, ?_⟩
        · by_cases hn : n = 0
          · subst hn
            exact ⟨by omega, by omega⟩
          · have := hb hn
            exact ⟨by omega, by omega⟩
        · intro j hj1 hj2
          by_cases hji : j = i
          · subst hji
            rw [hk j (by omega), List.getElem?_set_self h1]
          · exact hz j (by omega) (by omega)
        · intro j hj
          rw [hk j (by omega), List.getElem?_set_ne (by omega)]
      · simp [h1, h2] at h
    · simp [h1] at h

/-- A successful `khashmap_init` leaves `2 ^ bits` empty chains, and `bits` is at
most 30. -/
theorem khashmap_init_ok {K : Kernel} {m h0 : khashmap}
    (hinit : khashmap_init K m = some (0, h0)) :
    h0 = { bits := m.bits, hash := some (List.replicate (2 ^ m.bits) []) } ∧
      m.bits ≤ 30 := by
  unfold khashmap_init khashmap_alloc khashmap_size_in_bytes khashmap_size at hinit
  by_cases hbits : m.bits < BITS_PER_LONG
  · simp only [hbits, if_true, Option.map_some'] at hinit
    have hpow : 2 ^ m.bits < 2 ^ BITS_PER_LONG :=
      Nat.pow_lt_pow_right (by decide) hbits
    rw [Nat.mod_eq_of_lt hpow] at hinit
    generalize hsz : 2 ^ m.bits * sizeof_hlist_head % 2 ^ BITS_PER_LONG = size at hinit
    cases hal : (if size < K.PAGE_SIZE then K.kmalloc size else K.vmalloc size) with
    | none =>
      rw [hal] at hinit
      simp [ENOMEM] at hinit
    | some stale =>
      rw [hal] at hinit
      simp only at hinit
      cases hloop : khashmap_alloc_loop (2 ^ m.bits) 0
          ((List.range (size / sizeof_hlist_head)).map stale) with
      | none => simp [hloop] at hinit
      | some arr =>
        simp only [hloop, Option.map_some', Option.some.injEq, Prod.mk.injEq,
          true_and] at hinit
        obtain ⟨hl, hb, hz, -⟩ := khashmap_alloc_loop_spec _ _ _ _ hloop
        simp only [List.length_map, List.length_range, Nat.zero_add] at hl hb
        have hpos : 2 ^ m.bits ≠ 0 := by positivity
        obtain ⟨hb1, hb2⟩ := hb hpos
        have hle : size / sizeof_hlist_head ≤ 2 ^ m.bits := by
          rw [← hsz]
          have : 2 ^ m.bits * sizeof_hlist_head % 2 ^ BITS_PER_LONG ≤
              2 ^ m.bits * sizeof_hlist_head := Nat.mod_le _ _
          simp only [sizeof_hlist_head] at this ⊢
          omega
        have hlen : arr.length = 2 ^ m.bits := by omega
        have harr : arr = List.replicate (2 ^ m.bits) [] := by
          rw [List.eq_replicate_iff]
          refine ⟨hlen, fun c hc => ?_⟩
          obtain ⟨j, hj⟩ := List.mem_iff_getElem?.mp hc
          have hjlt : j < arr.length := (List.getElem?_eq_some.mp hj).1
          have := hz j (Nat.zero_le _) (by omega)
          rw [hj] at this
          exact Option.some.inj this
        refine ⟨by rw [← hinit, harr], ?_⟩
        have h31 : 2 ^ m.bits < 2 ^ 31 := by
          simp only [INT_MAX] at hb2
          omega
        have := (Nat.pow_lt_pow_iff_right (by decide : 1 < 2)).mp h31
        omega
  · simp [hbits] at hinit

/-- A freshly initialized map satisfies the invariant. -/
theorem khashmap_init_inv {K : Kernel} {m h0 : khashmap}
    (hK : ∀ val, K.hash_long val m.bits < 2 ^ m.bits)
    (hinit : khashmap_init K m = some (0, h0)) :
    khashmap_inv K h0 (List.replicate (2 ^ m.bits) []) ∧ h0.bits = m.bits := by
  obtain ⟨rfl, hle⟩ := khashmap_init_ok hinit
  refine ⟨?_, rfl⟩
  exact {
    hash_eq := rfl
    size_eq := by simp
    bits_le := hle
    range := hK
    placed := by
      intro i chain hi it hit
      rw [List.getElem?_replicate] at hi
      split at hi
      · cases hi
        simp at hit
      · cases hi
    nodup := by
      intro chain hc
      rw [List.eq_of_mem_replicate hc]
      simp }

/-! ## Which keys are stored after a call -/

theorem khashmap_stored_mk {bits : Nat} {arr : List hlist_head} {k : Nat} :
    khashmap_stored { bits := bits, hash := some arr } k = true ↔
      ∃ c ∈ arr, ∃ it ∈ c, it.key = k := by
  simp only [khashmap_stored_iff, khashmap_items, List.mem_flatten]
  constructor
  · rintro ⟨it, ⟨c, hc, hit⟩, hk⟩
    exact ⟨c, hc, it, hit, hk⟩
  · rintro ⟨c, hc, it, hit, hk⟩
    exact ⟨it, ⟨c, hc, hit⟩, hk⟩

theorem khashmap_inv.stored_iff {K : Kernel} {h : khashmap} {arr : List hlist_head}
    (hinv : khashmap_inv K h arr) {k : Nat} :
    khashmap_stored h k = true ↔ ∃ c ∈ arr, ∃ it ∈ c, it.key = k := by
  have : h = { bits := h.bits, hash := some arr } := by
    cases h
    simp only [khashmap.mk.injEq, true_and]
    exact hinv.hash_eq
  rw [this]
  exact khashmap_stored_mk

theorem khashmap_stored_replace {bits : Nat} {arr : List hlist_head} (key val k : Nat) :
    khashmap_stored { bits := bits, hash := some (arr.map (chain_replace key val)) } k = true ↔
      khashmap_stored { bits := bits, hash := some arr } k = true := by
  simp only [khashmap_stored_mk, List.mem_map]
  constructor
  · rintro ⟨_, ⟨c, hc, rfl⟩, it', hit', hk⟩
    have : k ∈ (chain_replace key val c).map (·.key) := List.mem_map.mpr ⟨it', hit', hk⟩
    rw [chain_replace_keys] at this
    obtain ⟨it, hit, hk'⟩ := List.mem_map.mp this
    exact ⟨c, hc, it, hit, hk'⟩
  · rintro ⟨c, hc, it, hit, hk⟩
    have : k ∈ (chain_replace key val c).map (·.key) := by
      rw [chain_replace_keys]
      exact List.mem_map.mpr ⟨it, hit, hk⟩
    obtain ⟨it', hit', hk'⟩ := List.mem_map.mp this
    exact ⟨_, ⟨c, hc, rfl⟩, it', hit', hk'⟩

theorem khashmap_stored_remove {bits : Nat} {arr : List hlist_head} (key k : Nat) :
    khashmap_stored { bits := bits, hash := some (arr.map (chain_remove key)) } k = true ↔
      khashmap_stored { bits := bits, hash := some arr } k = true ∧ k ≠ key := by
  simp only [khashmap_stored_mk, List.mem_map]
  constructor
  · rintro ⟨_, ⟨c, hc, rfl⟩, it, hit, hk⟩
    simp only [chain_remove, List.mem_filter, Bool.not_eq_true', decide_eq_false_iff_not] at hit
    exact ⟨⟨c, hc, it, hit.1, hk⟩, fun e => hit.2 (hk.trans e)⟩
  · rintro ⟨⟨c, hc, it, hit, hk⟩, hne⟩
    refine ⟨_, ⟨c, hc, rfl⟩, it, ?_, hk⟩
    simp only [chain_remove, List.mem_filter, Bool.not_eq_true', decide_eq_false_iff_not]
    exact ⟨hit, fun e => hne (hk.symm.trans e)⟩

theorem khashmap_stored_insert {bits : Nat} {arr : List hlist_head} {b : Nat}
    {chain : hlist_head} (hb : arr[b]? = some chain) (new : khashmap_item) (k : Nat) :
    khashmap_stored { bits := bits, hash := some (arr.set b (new :: chain)) } k = true ↔
      khashmap_stored { bits := bits, hash := some arr } k = true ∨ k = new.key := by
  have hlt : b < arr.length := (List.getElem?_eq_some.mp hb).1
  simp only [khashmap_stored_mk]
  constructor
  · rintro ⟨c', hc', it, hit, hk⟩
    rcases List.mem_or_eq_of_mem_set hc' with hc | rfl
    · exact Or.inl ⟨c', hc, it, hit, hk⟩
    · rcases List.mem_cons.mp hit with rfl | hit
      · exact Or.inr hk.symm
      · exact Or.inl ⟨chain, List.mem_iff_getElem?.mpr ⟨_, hb⟩, it, hit, hk⟩
  · rintro (⟨c, hc, it, hit, hk⟩ | rfl)
    · obtain ⟨i, hi⟩ := List.mem_iff_getElem?.mp hc
      by_cases hib : b = i
      · subst hib
        rw [hb] at hi
        cases hi
        exact ⟨new :: chain, List.mem_set _ _ hlt _, it, List.mem_cons_of_mem _ hit, hk⟩
      · refine ⟨c, List.mem_iff_getElem?.mpr ⟨i, ?_⟩, it, hit, hk⟩
        rw [List.getElem?_set_ne hib]
        exact hi
    · exact ⟨new :: chain, List.mem_set _ _ hlt _, new, List.mem_cons_self _ _, rfl⟩

theorem khashmap_inv.eq_mk {K : Kernel} {h : khashmap} {arr : List hlist_head}
    (hinv : khashmap_inv K h arr) : h = { bits := h.bits, hash := some arr } := by
  cases h
  simp only [khashmap.mk.injEq, true_and]
  exact hinv.hash_eq

/-- A call of `khashmap_add` on a map in a state of the invariant returns, keeps the
invariant, and stores the key if it succeeds. -/
theorem khashmap_inv.add {K : Kernel} {h : khashmap} {arr : List hlist_head}
    (hinv : khashmap_inv K h arr) (key val : Nat) (zalloc : Bool) :
    ∃ r h' arr', khashmap_add K h key val zalloc = some (r, h') ∧
      khashmap_inv K h' arr' ∧ h'.bits = h.bits ∧
      (r = 0 ∨ r = -ENOMEM) ∧
      (r = -ENOMEM ↔ (khashmap_stored h key = false ∧ zalloc = false)) ∧
      (r = -ENOMEM → h' = h) ∧
      ∀ k, khashmap_stored h' k = true ↔
        (khashmap_stored h k = true ∨ (k = key ∧ r = 0)) := by
  cases hst : khashmap_stored h key with
  | true =>
    refine ⟨0, _, _, hinv.add_stored hst val zalloc, hinv.replace key val, rfl,
      Or.inl rfl, by simp [ENOMEM], by simp [ENOMEM], fun k => ?_⟩
    rw [khashmap_stored_replace]
    rw [← hinv.eq_mk]
    constructor
    · exact Or.inl
    · rintro (h1 | ⟨rfl, -⟩)
      · exact h1
      · exact hst
  | false =>
    obtain ⟨chain, hb⟩ := hinv.bucket key
    cases zalloc with
    | true =>
      refine ⟨0, _, _, hinv.add_fresh hst hb val, hinv.insert hst hb val, rfl,
        Or.inl rfl, by simp [ENOMEM], by simp [ENOMEM], fun k => ?_⟩
      rw [khashmap_stored_insert hb, ← hinv.eq_mk]
      simp
    | false =>
      refine ⟨-ENOMEM, h, arr, hinv.add_fail hst val, hinv, rfl,
        Or.inr rfl, by simp, fun _ => rfl, fun k => ?_⟩
      simp [ENOMEM]

/-- A call of `khashmap_del` on a map in a state of the invariant returns, keeps the
invariant, and leaves the key not stored. -/
theorem khashmap_inv.del {K : Kernel} {h : khashmap} {arr : List hlist_head}
    (hinv : khashmap_inv K h arr) (key : Nat) :
    ∃ h' arr', khashmap_del K h key = some h' ∧
      khashmap_inv K h' arr' ∧ h'.bits = h.bits ∧
      ∀ k, khashmap_stored h' k = true ↔ (khashmap_stored h k = true ∧ k ≠ key) := by
  refine ⟨_, _, hinv.del_eq key, hinv.remove key, rfl, fun k => ?_⟩
  rw [khashmap_stored_remove, ← hinv.eq_mk]

theorem khashmap_inv.step {K : Kernel} {h : khashmap} {arr : List hlist_head}
    (hinv : khashmap_inv K h arr) (op : khashmap_op) :
    ∃ h' arr', khashmap_step K h op = some h' ∧
      khashmap_inv K h' arr' ∧ h'.bits = h.bits := by
  cases op with
  | add key val zalloc =>
    obtain ⟨r, h', arr', hadd, hinv', hbits, -⟩ := hinv.add key val zalloc
    exact ⟨h', arr', by simp [khashmap_step, hadd], hinv', hbits⟩
  | del key =>
    obtain ⟨h', arr', hdel, hinv', hbits, -⟩ := hinv.del key
    exact ⟨h', arr', by simp [khashmap_step, hdel], hinv', hbits⟩

theorem khashmap_inv.run {K : Kernel} (ops : List khashmap_op) :
    ∀ {h : khashmap} {arr : List hlist_head}, khashmap_inv K h arr →
    ∃ h' arr', khashmap_run K h ops = some h' ∧
      khashmap_inv K h' arr' ∧ h'.bits = h.bits := by
  induction ops with
  | nil =>
    intro h arr hinv
    exact ⟨h, arr, rfl, hinv, rfl⟩
  | cons op ops ih =>
    intro h arr hinv
    obtain ⟨h1, arr1, hstep, hinv1, hbits1⟩ := hinv.step op
    obtain ⟨h', arr', hrun, hinv', hbits'⟩ := ih hinv1
    exact ⟨h', arr', by simp [khashmap_run, hstep, hrun], hinv', hbits'.trans hbits1⟩

/-- Every map reached from a successful `khashmap_init` by calls of `khashmap_add` and
`khashmap_del` is in a state of the invariant. -/
theorem khashmap_reach_inv {K : Kernel} {m h0 h : khashmap} {ops : List khashmap_op}
    (hK : ∀ val, K.hash_long val m.bits < 2 ^ m.bits)
    (hinit : khashmap_init K m = some (0, h0))
    (hrun : khashmap_run K h0 ops = some h) :
    ∃ arr, khashmap_inv K h arr ∧ h.bits = m.bits := by
  obtain ⟨hinv0, hb0⟩ := khashmap_init_inv hK hinit
  obtain ⟨h', arr', hrun', hinv', hbits'⟩ := khashmap_inv.run ops hinv0
  rw [hrun] at hrun'
  cases hrun'
  exact ⟨arr', hinv', hbits'.trans hb0⟩

/-- The kernel of the examples yields bucket indices in range. -/
theorem exampleKernel_range (bits : Nat) :
    ∀ val, exampleKernel.hash_long val bits < 2 ^ bits :=
  fun val => Nat.mod_lt val (Nat.pow_pos (by decide))

/-! ## Lookup after a call -/

theorem khashmap_inv.find_of_not_stored {K : Kernel} {h : khashmap}
    {arr : List hlist_head} (hinv : khashmap_inv K h arr) {k : Nat}
    (hst : khashmap_stored h k = false) : khashmap_find K h k = some NULL := by
  obtain ⟨chain, hb⟩ := hinv.bucket k
  have hs := (hinv.stored_iff_scan hb).mp hst
  have hl : chain_lookup k chain = none :=
    chain_lookup_eq_none.mpr (hlist_scan_eq_none.mp hs)
  simp [khashmap_find_eq, khashmap_bucket, hinv.hash_eq, hb, chain_val, hl]

theorem khashmap_find_after_add {K : Kernel} {h h' : khashmap} {key val : Nat}
    {zalloc : Bool} (hadd : khashmap_add K h key val zalloc = some (0, h')) :
    khashmap_find K h' key = some val := by
  obtain ⟨arr, chain, -, hb, hcases⟩ := khashmap_add_cases hadd
  rcases hcases with ⟨p, it, hs, hp, -, rfl⟩ | ⟨-, -, -, rfl⟩ | ⟨-, -, h0, -⟩
  · rw [khashmap_find_eq, khashmap_bucket_set K h arr _ chain _ hb]
    simp [chain_val, chain_lookup_set_self hs hp]
  · rw [khashmap_find_eq, khashmap_bucket_set K h arr _ chain _ hb]
    simp [chain_val, chain_lookup]
  · simp [ENOMEM] at h0

theorem khashmap_find_other_after_add {K : Kernel} {h h' : khashmap} {key key' val : Nat}
    {zalloc : Bool} {r : Int} (hne : key ≠ key')
    (hadd : khashmap_add K h key val zalloc = some (r, h')) :
    khashmap_find K h' key' = khashmap_find K h key' := by
  obtain ⟨arr, chain, harr, hb, hcases⟩ := khashmap_add_cases hadd
  have hold : khashmap_bucket K h key' = arr[khashmap_hashfn K h key']? := by
    simp [khashmap_bucket, harr]
  rcases hcases with ⟨p, it, hs, hp, -, rfl⟩ | ⟨-, -, -, rfl⟩ | ⟨-, -, -, rfl⟩
  · obtain ⟨it', hp', hk⟩ := hlist_scan_eq_some hs
    rw [hp] at hp'
    cases hp'
    rw [khashmap_find_eq, khashmap_find_eq, khashmap_bucket_set K h arr _ chain _ hb, hold]
    by_cases hkb : khashmap_hashfn K h key' = khashmap_hashfn K h key
    · simp [hkb, hb, chain_val, chain_lookup_set_other hp hk hne]
    · simp [hkb]
  · rw [khashmap_find_eq, khashmap_find_eq, khashmap_bucket_set K h arr _ chain _ hb, hold]
    by_cases hkb : khashmap_hashfn K h key' = khashmap_hashfn K h key
    · simp [hkb, hb, chain_val, chain_lookup, hne]
    · simp [hkb]
  · rfl

theorem khashmap_find_other_after_del {K : Kernel} {h h' : khashmap} {key key' : Nat}
    (hne : key ≠ key') (hdel : khashmap_del K h key = some h') :
    khashmap_find K h' key' = khashmap_find K h key' := by
  obtain ⟨arr, chain, harr, hb, hcases⟩ := khashmap_del_cases hdel
  have hold : khashmap_bucket K h key' = arr[khashmap_hashfn K h key']? := by
    simp [khashmap_bucket, harr]
  rcases hcases with ⟨p, it, -, hp, hk, rfl⟩ | ⟨-, rfl⟩
  · rw [khashmap_find_eq, khashmap_find_eq, khashmap_bucket_set K h arr _ chain _ hb, hold]
    by_cases hkb : khashmap_hashfn K h key' = khashmap_hashfn K h key
    · simp [hkb, hb, chain_val, chain_lookup_eraseIdx_other hp hk hne]
    · simp [hkb]
  · rfl

theorem khashmap_last_op_cons (k : Nat) (op : khashmap_op) (ops : List khashmap_op) :
    khashmap_last_op k (op :: ops) =
      if op.key = k then some ((khashmap_last_op k ops).getD op)
      else khashmap_last_op k ops := by
  unfold khashmap_last_op
  by_cases hk : op.key = k
  · rw [List.filter_cons_of_pos (by simpa using hk), List.getLast?_cons, if_pos hk]
  · rw [List.filter_cons_of_neg (by simpa using hk), if_neg hk]

theorem khashmap_last_op_eq_none {k : Nat} {ops : List khashmap_op}
    (h : khashmap_last_op k ops = none) : ∀ op ∈ ops, op.adds k = false := by
  intro op hop
  unfold khashmap_last_op at h
  rw [List.getLast?_eq_none_iff, List.filter_eq_nil_iff] at h
  have := h op hop
  cases op with
  | add key' _ _ => simpa [khashmap_op.adds, khashmap_op.key] using this
  | del _ => rfl

/-- After a run in which a key is never added, or is last named by a `khashmap_del`,
the key is not stored. -/
theorem khashmap_inv.run_not_stored {K : Kernel} (k : Nat) (ops : List khashmap_op) :
    ∀ {h : khashmap} {arr : List hlist_head}, khashmap_inv K h arr →
      ((khashmap_stored h k = false ∧ ∀ op ∈ ops, op.adds k = false) ∨
        khashmap_last_op k ops = some (.del k)) →
      ∃ h' arr', khashmap_run K h ops = some h' ∧ khashmap_inv K h' arr' ∧
        khashmap_stored h' k = false := by
  induction ops with
  | nil =>
    intro h arr hinv hc
    rcases hc with ⟨hst, -⟩ | hl
    · exact ⟨h, arr, rfl, hinv, hst⟩
    · simp [khashmap_last_op] at hl
  | cons op ops ih =>
    intro h arr hinv hc
    have key_step : ∃ h1 arr1, khashmap_step K h op = some h1 ∧ khashmap_inv K h1 arr1 ∧
        ((khashmap_stored h1 k = false ∧ ∀ op ∈ ops, op.adds k = false) ∨
          khashmap_last_op k ops = some (.del k)) := by
      rw [khashmap_last_op_cons] at hc
      cases op with
      | add key val zalloc =>
        obtain ⟨r, h1, arr1, hadd, hinv1, -, -, -, -, hstored⟩ := hinv.add key val zalloc
        refine ⟨h1, arr1, by simp [khashmap_step, hadd], hinv1, ?_⟩
        rcases hc with ⟨hst, hall⟩ | hl
        · left
          have hk : key ≠ k := by
            have := hall (.add key val zalloc) (List.mem_cons_self _ _)
            simpa [khashmap_op.adds] using this
          refine ⟨?_, fun op hop => hall op (List.mem_cons_of_mem _ hop)⟩
          rw [← Bool.not_eq_true, hstored k]
          rintro (h1 | ⟨rfl, -⟩)
          · rw [hst] at h1
            cases h1
          · exact hk rfl
        · right
          by_cases hk : (khashmap_op.add key val zalloc).key = k
          · rw [if_pos hk] at hl
            cases hlast : khashmap_last_op k ops with
            | none => simp [hlast] at hl
            | some x => simpa [hlast] using hl
          · rw [if_neg hk] at hl
            exact hl
      | del key =>
        obtain ⟨h1, arr1, hdel, hinv1, -, hstored⟩ := hinv.del key
        refine ⟨h1, arr1, by simp [khashmap_step, hdel], hinv1, ?_⟩
        rcases hc with ⟨hst, hall⟩ | hl
        · left
          refine ⟨?_, fun op hop => hall op (List.mem_cons_of_mem _ hop)⟩
          rw [← Bool.not_eq_true, hstored k]
          rintro ⟨h1, -⟩
          rw [hst] at h1
          cases h1
        · by_cases hk : (khashmap_op.del key).key = k
          · rw [if_pos hk] at hl
            cases hlast : khashmap_last_op k ops with
            | none =>
              left
              refine ⟨?_, khashmap_last_op_eq_none hlast⟩
              rw [← Bool.not_eq_true, hstored k]
              rintro ⟨-, h2⟩
              exact h2 hk.symm
            | some x =>
              right
              simpa [hlast] using hl
          · right
            rw [if_neg hk] at hl
            exact hl
    obtain ⟨h1, arr1, hstep, hinv1, hc1⟩ := key_step
    obtain ⟨h', arr', hrun, hinv', hst'⟩ := ih hinv1 hc1
    exact ⟨h', arr', by simp [khashmap_run, hstep, hrun], hinv', hst'⟩

theorem khashmap_inv.keys_nodup {K : Kernel} {h : khashmap} {arr : List hlist_head}
    (hinv : khashmap_inv K h arr) : ((khashmap_items h).map (·.key)).Nodup := by
  rw [hinv.items, List.map_flatten, List.nodup_flatten]
  constructor
  · intro l hl
    obtain ⟨c, hc, rfl⟩ := List.mem_map.mp hl
    exact hinv.nodup c hc
  · rw [List.pairwise_iff_getElem]
    intro i j hi hj hij a ha1 ha2
    simp only [List.getElem_map, List.mem_map] at ha1 ha2
    simp only [List.length_map] at hi hj
    obtain ⟨it1, hit1, rfl⟩ := ha1
    obtain ⟨it2, hit2, hk⟩ := ha2
    have h1 := hinv.placed i arr[i] (List.getElem?_eq_getElem hi) it1 hit1
    have h2 := hinv.placed j arr[j] (List.getElem?_eq_getElem hj) it2 hit2
    rw [hk, h1] at h2
    omega

/-! ## Lookup, replacement and removal -/

/-- C1: a call `khashmap_add(key, val)` that returns 0 makes `khashmap_find(key)` return
`val` on the resulting map, whether the key was stored before or not; in particular a
second successful `khashmap_add(key, val2)` makes `khashmap_find(key)` return `val2`. -/
theorem khashmap_add_find (K : Kernel) (h h' : khashmap) (key val : Nat) (zalloc : Bool)
    (hadd : khashmap_add K h key val zalloc = some (0, h')) :
    khashmap_find K h' key = some val ∧
      ∀ (val2 : Nat) (zalloc2 : Bool) (h'' : khashmap),
        khashmap_add K h' key val2 zalloc2 = some (0, h'') →
        khashmap_find K h'' key = some val2 :=
  ⟨khashmap_find_after_add hadd, fun _ _ _ hadd2 => khashmap_find_after_add hadd2⟩

theorem khashmap_add_find_witness :
    khashmap_add exampleKernel exampleMap 5 9 false =
        some (0, { bits := 2, hash := some [[], [⟨21, 8⟩, ⟨5, 9⟩], [], []] }) ∧
      khashmap_find exampleKernel
        { bits := 2, hash := some [[], [⟨21, 8⟩, ⟨5, 9⟩], [], []] } 5 = some 9 :=
  ⟨by decide, (khashmap_add_find exampleKernel exampleMap
    { bits := 2, hash := some [[], [⟨21, 8⟩, ⟨5, 9⟩], [], []] } 5 9 false (by decide)).1⟩

/-- C2: after any sequence of `khashmap_add` and `khashmap_del` calls on a freshly
initialized map, a key that no call added, or that was last named by a `khashmap_del`,
is not found: `khashmap_find` returns `NULL`. -/
theorem khashmap_find_miss (K : Kernel) (m h0 : khashmap) (ops : List khashmap_op)
    (k : Nat) (hK : ∀ val, K.hash_long val m.bits < 2 ^ m.bits)
    (hinit : khashmap_init K m = some (0, h0))
    (hmiss : (∀ op ∈ ops, op.adds k = false) ∨ khashmap_last_op k ops = some (.del k)) :
    ∃ h, khashmap_run K h0 ops = some h ∧ khashmap_find K h k = some NULL := by
  obtain ⟨hinv0, -⟩ := khashmap_init_inv hK hinit
  have hst0 : khashmap_stored h0 k = false := by
    rw [(khashmap_init_ok hinit).1]
    simp [khashmap_stored, khashmap_items]
  have hc : (khashmap_stored h0 k = false ∧ ∀ op ∈ ops, op.adds k = false) ∨
      khashmap_last_op k ops = some (.del k) := by
    rcases hmiss with h1 | h2
    · exact Or.inl ⟨hst0, h1⟩
    · exact Or.inr h2
  obtain ⟨h, arr, hrun, hinv, hst⟩ := khashmap_inv.run_not_stored k ops hinv0 hc
  exact ⟨h, hrun, hinv.find_of_not_stored hst⟩

theorem khashmap_find_miss_witness :
    (∀ val, exampleKernel.hash_long val (DEFINE_KHASHMAP_BITS 2).bits <
        2 ^ (DEFINE_KHASHMAP_BITS 2).bits) ∧
      khashmap_init exampleKernel (DEFINE_KHASHMAP_BITS 2) = some (0, exampleFresh) ∧
      khashmap_last_op 5 (exampleOps ++ [.del 5, .add 6 1 false]) = some (.del 5) ∧
      ∃ h, khashmap_run exampleKernel exampleFresh
          (exampleOps ++ [.del 5, .add 6 1 false]) = some h ∧
        khashmap_find exampleKernel h 5 = some NULL :=
  ⟨exampleKernel_range 2, by decide, by decide,
    khashmap_find_miss exampleKernel (DEFINE_KHASHMAP_BITS 2) exampleFresh
      (exampleOps ++ [.del 5, .add 6 1 false]) 5
      (exampleKernel_range 2) (by decide) (Or.inr (by decide))⟩

/-- C3: after any sequence of `khashmap_add` and `khashmap_del` calls on a freshly
initialized map, no two items of the map, all bucket chains taken together, have the
same key. -/
theorem khashmap_unique_keys (K : Kernel) (m h0 : khashmap) (ops : List khashmap_op)
    (hK : ∀ val, K.hash_long val m.bits < 2 ^ m.bits)
    (hinit : khashmap_init K m = some (0, h0)) :
    ∃ h, khashmap_run K h0 ops = some h ∧ ((khashmap_items h).map (·.key)).Nodup := by
  obtain ⟨hinv0, -⟩ := khashmap_init_inv hK hinit
  obtain ⟨h, arr, hrun, hinv, -⟩ := khashmap_inv.run ops hinv0
  exact ⟨h, hrun, hinv.keys_nodup⟩

theorem khashmap_unique_keys_witness :
    (∀ val, exampleKernel.hash_long val (DEFINE_KHASHMAP_BITS 2).bits <
        2 ^ (DEFINE_KHASHMAP_BITS 2).bits) ∧
      khashmap_init exampleKernel (DEFINE_KHASHMAP_BITS 2) = some (0, exampleFresh) ∧
      ∃ h, khashmap_run exampleKernel exampleFresh exampleOps = some h ∧
        ((khashmap_items h).map (·.key)).Nodup :=
  ⟨exampleKernel_range 2, by decide,
    khashmap_unique_keys exampleKernel (DEFINE_KHASHMAP_BITS 2) exampleFresh exampleOps
      (exampleKernel_range 2) (by decide)⟩

/-- C4: on a map reached from a successful `khashmap_init`, for two distinct keys `key`
and `key'` (in the same bucket or not), `khashmap_add(key, val)` and `khashmap_del(key)`
return and leave the result of `khashmap_find(key')` as it was. -/
theorem khashmap_find_frame (K : Kernel) (m h0 h : khashmap) (ops : List khashmap_op)
    (key key' val : Nat) (zalloc : Bool)
    (hK : ∀ val, K.hash_long val m.bits < 2 ^ m.bits)
    (hinit : khashmap_init K m = some (0, h0))
    (hrun : khashmap_run K h0 ops = some h) (hne : key ≠ key') :
    (∃ r h', khashmap_add K h key val zalloc = some (r, h') ∧
        khashmap_find K h' key' = khashmap_find K h key') ∧
      ∃ h', khashmap_del K h key = some h' ∧
        khashmap_find K h' key' = khashmap_find K h key' := by
  obtain ⟨arr, hinv, -⟩ := khashmap_reach_inv hK hinit hrun
  obtain ⟨r, h1, -, hadd, -⟩ := hinv.add key val zalloc
  obtain ⟨h2, -, hdel, -⟩ := hinv.del key
  exact ⟨⟨r, h1, hadd, khashmap_find_other_after_add hne hadd⟩,
    ⟨h2, hdel, khashmap_find_other_after_del hne hdel⟩⟩

theorem khashmap_find_frame_witness :
    (∀ val, exampleKernel.hash_long val (DEFINE_KHASHMAP_BITS 2).bits <
        2 ^ (DEFINE_KHASHMAP_BITS 2).bits) ∧
      khashmap_init exampleKernel (DEFINE_KHASHMAP_BITS 2) = some (0, exampleFresh) ∧
      khashmap_run exampleKernel exampleFresh exampleOps = some exampleMap ∧
      (5 : Nat) ≠ 21 ∧
      (∃ r h', khashmap_add exampleKernel exampleMap 5 9 true = some (r, h') ∧
          khashmap_find exampleKernel h' 21 = khashmap_find exampleKernel exampleMap 21) ∧
        ∃ h', khashmap_del exampleKernel exampleMap 5 = some h' ∧
          khashmap_find exampleKernel h' 21 = khashmap_find exampleKernel exampleMap 21 :=
  ⟨exampleKernel_range 2, by decide, by decide, by decide,
    khashmap_find_frame exampleKernel (DEFINE_KHASHMAP_BITS 2) exampleFresh exampleMap
      exampleOps 5 21 9 true (exampleKernel_range 2) (by decide) (by decide) (by decide)⟩

/-! ## What `khashmap_find` tells -/

theorem khashmap_inv.bucket_subset {K : Kernel} {h : khashmap} {arr : List hlist_head}
    (hinv : khashmap_inv K h arr) {i : Nat} {chain : hlist_head}
    (hb : arr[i]? = some chain) {it : khashmap_item} (hit : it ∈ chain) :
    it ∈ khashmap_items h := by
  rw [hinv.items]
  exact List.mem_flatten.mpr ⟨chain, List.mem_iff_getElem?.mpr ⟨_, hb⟩, hit⟩

/-- Under the invariant `khashmap_find` returns the value of the stored item with the
key, and `NULL` when no item has the key. -/
theorem khashmap_inv.find_eq_some_iff {K : Kernel} {h : khashmap} {arr : List hlist_head}
    (hinv : khashmap_inv K h arr) (k v : Nat) :
    khashmap_find K h k = some v ↔
      ({ key := k, val := v } ∈ khashmap_items h ∨
        (v = NULL ∧ khashmap_stored h k = false)) := by
  obtain ⟨chain, hb⟩ := hinv.bucket k
  have hfind : khashmap_find K h k = some (chain_val k chain) := by
    simp [khashmap_find_eq, khashmap_bucket, hinv.hash_eq, hb]
  rw [hfind]
  cases hl : chain_lookup k chain with
  | none =>
    have hs : hlist_scan k chain = none :=
      hlist_scan_eq_none.mpr (chain_lookup_eq_none.mp hl)
    have hst := (hinv.stored_iff_scan hb).mpr hs
    simp only [chain_val, hl, Option.some.injEq]
    constructor
    · intro hv
      exact Or.inr ⟨hv.symm, hst⟩
    · rintro (hmem | ⟨hv, -⟩)
      · exact absurd rfl (khashmap_stored_eq_false.mp hst _ hmem)
      · exact hv.symm
  | some it =>
    obtain ⟨hit, hk⟩ := chain_lookup_eq_some hl
    have hmem : it ∈ khashmap_items h := hinv.bucket_subset hb hit
    simp only [chain_val, hl, Option.some.injEq]
    constructor
    · intro hv
      left
      have : it = { key := k, val := v } := by
        cases it
        simp only [khashmap_item.mk.injEq]
        exact ⟨hk, hv⟩
      rw [← this]
      exact hmem
    · rintro (hmem' | ⟨-, hst⟩)
      · have := List.inj_on_of_nodup_map hinv.keys_nodup hmem hmem' hk
        rw [this]
      · exact absurd hk (khashmap_stored_eq_false.mp hst it hmem)

/-- C5: on a map reached from a successful `khashmap_init` by `khashmap_add` and
`khashmap_del` calls, `khashmap_find(k)` returns `NULL` exactly when no item with key
`k` is stored or the value of the stored item is `NULL`, and returns a value `v` other
than `NULL` exactly when the item `(k, v)` is stored. -/
theorem khashmap_find_null_iff (K : Kernel) (m h0 h : khashmap) (ops : List khashmap_op)
    (k : Nat) (hK : ∀ val, K.hash_long val m.bits < 2 ^ m.bits)
    (hinit : khashmap_init K m = some (0, h0))
    (hrun : khashmap_run K h0 ops = some h) :
    (khashmap_find K h k = some NULL ↔
        ∀ it ∈ khashmap_items h, it.key = k → it.val = NULL) ∧
      ∀ v, v ≠ NULL →
        (khashmap_find K h k = some v ↔ { key := k, val := v } ∈ khashmap_items h) := by
  obtain ⟨arr, hinv, -⟩ := khashmap_reach_inv hK hinit hrun
  constructor
  · rw [hinv.find_eq_some_iff]
    constructor
    · rintro (hmem | ⟨-, hst⟩) it hit hk
      · have := List.inj_on_of_nodup_map hinv.keys_nodup hit hmem hk
        rw [this]
      · exact absurd hk (khashmap_stored_eq_false.mp hst it hit)
    · intro hall
      cases hst : khashmap_stored h k with
      | false => exact Or.inr ⟨rfl, rfl⟩
      | true =>
        obtain ⟨it, hit, hk⟩ := khashmap_stored_iff.mp hst
        left
        have : it = { key := k, val := NULL } := by
          have hv := hall it hit hk
          cases it
          simp only [khashmap_item.mk.injEq]
          exact ⟨hk, hv⟩
        rw [← this]
        exact hit
  · intro v hv
    rw [hinv.find_eq_some_iff]
    constructor
    · rintro (hmem | ⟨h0, -⟩)
      · exact hmem
      · exact absurd h0 hv
    · exact Or.inl

theorem khashmap_find_null_iff_witness :
    (∀ val, exampleKernel.hash_long val (DEFINE_KHASHMAP_BITS 2).bits <
        2 ^ (DEFINE_KHASHMAP_BITS 2).bits) ∧
      khashmap_init exampleKernel (DEFINE_KHASHMAP_BITS 2) = some (0, exampleFresh) ∧
      khashmap_run exampleKernel exampleFresh exampleOps = some exampleMap ∧
      (khashmap_find exampleKernel exampleMap 5 = some 7 ↔
        { key := 5, val := 7 } ∈ khashmap_items exampleMap) :=
  ⟨exampleKernel_range 2, by decide, by decide,
    (khashmap_find_null_iff exampleKernel (DEFINE_KHASHMAP_BITS 2) exampleFresh exampleMap
      exampleOps 5 (exampleKernel_range 2) (by decide) (by decide)).2 7 (by decide)⟩

/-- C5, as stated, fails: after `khashmap_add(5, NULL)` on a fresh map the key 5 is
stored and `khashmap_find(5)` returns `NULL`. -/
theorem khashmap_find_null_stored :
    khashmap_init exampleKernel (DEFINE_KHASHMAP_BITS 2) = some (0, exampleFresh) ∧
      khashmap_run exampleKernel exampleFresh [.add 5 NULL true] = some exampleNull ∧
      ¬ (khashmap_find exampleKernel exampleNull 5 = some NULL ↔
        ¬ ∃ it ∈ khashmap_items exampleNull, it.key = 5) := by
  refine ⟨by decide, by decide, ?_⟩
  intro hiff
  exact hiff.mp (by decide) ⟨⟨5, NULL⟩, by decide, rfl⟩

/-! ## Failure, replacement in place, deletion of an absent key -/

/-- C6: on a map reached from a successful `khashmap_init`, `khashmap_add` returns,
with 0 or `-ENOMEM`; it returns `-ENOMEM` exactly when the key is not stored and the
item allocation fails, and then the map after the call is the map before the call. -/
theorem khashmap_add_enomem_iff (K : Kernel) (m h0 h : khashmap) (ops : List khashmap_op)
    (key val : Nat) (zalloc : Bool)
    (hK : ∀ val, K.hash_long val m.bits < 2 ^ m.bits)
    (hinit : khashmap_init K m = some (0, h0))
    (hrun : khashmap_run K h0 ops = some h) :
    ∃ r h', khashmap_add K h key val zalloc = some (r, h') ∧
      (r = 0 ∨ r = -ENOMEM) ∧
      (r = -ENOMEM ↔ ((¬ ∃ it ∈ khashmap_items h, it.key = key) ∧ zalloc = false)) ∧
      (r = -ENOMEM → h' = h) := by
  obtain ⟨arr, hinv, -⟩ := khashmap_reach_inv hK hinit hrun
  obtain ⟨r, h', -, hadd, -, -, hr, hiff, hsame, -⟩ := hinv.add key val zalloc
  refine ⟨r, h', hadd, hr, ?_, hsame⟩
  rw [hiff, ← khashmap_stored_iff, Bool.not_eq_true]

theorem khashmap_add_enomem_iff_witness :
    (∀ val, exampleKernel.hash_long val (DEFINE_KHASHMAP_BITS 2).bits <
        2 ^ (DEFINE_KHASHMAP_BITS 2).bits) ∧
      khashmap_init exampleKernel (DEFINE_KHASHMAP_BITS 2) = some (0, exampleFresh) ∧
      khashmap_run exampleKernel exampleFresh exampleOps = some exampleMap ∧
      ∃ r h', khashmap_add exampleKernel exampleMap 9 3 false = some (r, h') ∧
        (r = 0 ∨ r = -ENOMEM) ∧
        (r = -ENOMEM ↔
          ((¬ ∃ it ∈ khashmap_items exampleMap, it.key = 9) ∧ false = false)) ∧
        (r = -ENOMEM → h' = exampleMap) :=
  ⟨exampleKernel_range 2, by decide, by decide,
    khashmap_add_enomem_iff exampleKernel (DEFINE_KHASHMAP_BITS 2) exampleFresh exampleMap
      exampleOps 9 3 false (exampleKernel_range 2) (by decide) (by decide)⟩

theorem khashmap_items_length_replace (key val : Nat) (arr : List hlist_head) :
    (arr.map (chain_replace key val)).flatten.length = arr.flatten.length := by
  induction arr with
  | nil => rfl
  | cons c rest ih =>
    simp only [List.map_cons, List.flatten_cons, List.length_append, ih]
    simp [chain_replace]

/-- C7: on a map reached from a successful `khashmap_init` that stores the key,
`khashmap_add(key, val)` returns 0 whatever the allocator would answer (no item is
allocated); the bucket array has the same chains with the same keys in the same order,
as many items as before, and every item is as before but that the value of the items
with this key is `val`. -/
theorem khashmap_add_replace_in_place (K : Kernel) (m h0 h : khashmap)
    (ops : List khashmap_op) (key val : Nat)
    (hK : ∀ val, K.hash_long val m.bits < 2 ^ m.bits)
    (hinit : khashmap_init K m = some (0, h0))
    (hrun : khashmap_run K h0 ops = some h)
    (hstored : ∃ it ∈ khashmap_items h, it.key = key) :
    ∃ h', (∀ zalloc, khashmap_add K h key val zalloc = some (0, h')) ∧
      h'.bits = h.bits ∧
      h'.hash = h.hash.map (List.map (List.map fun it =>
        if it.key = key then { it with val := val } else it)) ∧
      h'.hash.map (List.map (List.map (·.key))) =
        h.hash.map (List.map (List.map (·.key))) ∧
      (khashmap_items h').length = (khashmap_items h).length := by
  obtain ⟨arr, hinv, -⟩ := khashmap_reach_inv hK hinit hrun
  have hst := khashmap_stored_iff.mpr hstored
  refine ⟨{ h with hash := some (arr.map (chain_replace key val)) },
    fun zalloc => hinv.add_stored hst val zalloc, rfl, ?_, ?_, ?_⟩
  · simp only [hinv.hash_eq, Option.map_some']
    rfl
  · simp only [hinv.hash_eq, Option.map_some', List.map_map, Option.some.injEq]
    apply List.map_congr_left
    intro c _
    exact chain_replace_keys key val c
  · simp only [khashmap_items, hinv.hash_eq]
    exact khashmap_items_length_replace key val arr

theorem khashmap_add_replace_in_place_witness :
    (∀ val, exampleKernel.hash_long val (DEFINE_KHASHMAP_BITS 2).bits <
        2 ^ (DEFINE_KHASHMAP_BITS 2).bits) ∧
      khashmap_init exampleKernel (DEFINE_KHASHMAP_BITS 2) = some (0, exampleFresh) ∧
      khashmap_run exampleKernel exampleFresh exampleOps = some exampleMap ∧
      (∃ it ∈ khashmap_items exampleMap, it.key = 5) ∧
      ∃ h', (∀ zalloc, khashmap_add exampleKernel exampleMap 5 9 zalloc = some (0, h')) ∧
        h'.bits = exampleMap.bits ∧
        h'.hash = exampleMap.hash.map (List.map (List.map fun it =>
          if it.key = 5 then { it with val := 9 } else it)) ∧
        h'.hash.map (List.map (List.map (·.key))) =
          exampleMap.hash.map (List.map (List.map (·.key))) ∧
        (khashmap_items h').length = (khashmap_items exampleMap).length :=
  ⟨exampleKernel_range 2, by decide, by decide, ⟨⟨5, 7⟩, by decide, rfl⟩,
    khashmap_add_replace_in_place exampleKernel (DEFINE_KHASHMAP_BITS 2) exampleFresh
      exampleMap exampleOps 5 9 (exampleKernel_range 2) (by decide) (by decide)
      ⟨⟨5, 7⟩, by decide, rfl⟩⟩

theorem khashmap_inv.del_of_not_stored {K : Kernel} {h : khashmap}
    {arr : List hlist_head} (hinv : khashmap_inv K h arr) {key : Nat}
    (hst : khashmap_stored h key = false) : khashmap_del K h key = some h := by
  obtain ⟨chain, hb⟩ := hinv.bucket key
  have hs := (hinv.stored_iff_scan hb).mp hst
  simp [khashmap_del, khashmap_find_item, hinv.hash_eq, hb, hs]

/-- C8: on a map reached from a successful `khashmap_init`, `khashmap_del(key)` of a
key that is not stored leaves the map as it is, and `khashmap_del(key)` called twice
yields the map that one call yields. -/
theorem khashmap_del_idempotent (K : Kernel) (m h0 h : khashmap) (ops : List khashmap_op)
    (key : Nat) (hK : ∀ val, K.hash_long val m.bits < 2 ^ m.bits)
    (hinit : khashmap_init K m = some (0, h0))
    (hrun : khashmap_run K h0 ops = some h) :
    ((¬ ∃ it ∈ khashmap_items h, it.key = key) → khashmap_del K h key = some h) ∧
      ∃ h1, khashmap_del K h key = some h1 ∧ khashmap_del K h1 key = some h1 ∧
        (khashmap_del K h key).bind (fun h' => khashmap_del K h' key) =
          khashmap_del K h key := by
  obtain ⟨arr, hinv, -⟩ := khashmap_reach_inv hK hinit hrun
  constructor
  · intro hns
    rw [← khashmap_stored_iff, Bool.not_eq_true] at hns
    exact hinv.del_of_not_stored hns
  · obtain ⟨h1, arr1, hdel, hinv1, -, hstored⟩ := hinv.del key
    have hst1 : khashmap_stored h1 key = false := by
      rw [← Bool.not_eq_true, hstored key]
      rintro ⟨-, hne⟩
      exact hne rfl
    have hdel1 := hinv1.del_of_not_stored hst1
    exact ⟨h1, hdel, hdel1, by simp [hdel, hdel1]⟩

theorem khashmap_del_idempotent_witness :
    (∀ val, exampleKernel.hash_long val (DEFINE_KHASHMAP_BITS 2).bits <
        2 ^ (DEFINE_KHASHMAP_BITS 2).bits) ∧
      khashmap_init exampleKernel (DEFINE_KHASHMAP_BITS 2) = some (0, exampleFresh) ∧
      khashmap_run exampleKernel exampleFresh exampleOps = some exampleMap ∧
      ∃ h1, khashmap_del exampleKernel exampleMap 5 = some h1 ∧
        khashmap_del exampleKernel h1 5 = some h1 ∧
        (khashmap_del exampleKernel exampleMap 5).bind
            (fun h' => khashmap_del exampleKernel h' 5) =
          khashmap_del exampleKernel exampleMap 5 :=
  ⟨exampleKernel_range 2, by decide, by decide,
    (khashmap_del_idempotent exampleKernel (DEFINE_KHASHMAP_BITS 2) exampleFresh
      exampleMap exampleOps 5 (exampleKernel_range 2) (by decide) (by decide)).2⟩

/-! ## Emptiness -/

theorem khashmap_empty_loop_eq {h : khashmap} {arr : List hlist_head}
    (harr : h.hash = some arr) (n : Nat) :
    ∀ pos, pos + n = arr.length → pos + n ≤ INT_MAX →
      khashmap_empty_loop h n pos = some ((arr.drop pos).all List.isEmpty) := by
  induction n with
  | zero =>
    intro pos hlen _
    have : arr.drop pos = [] := List.drop_of_length_le (by omega)
    simp [khashmap_empty_loop, this]
  | succ n ih =>
    intro pos hlen hmax
    have hlt : pos < arr.length := by omega
    have hget : arr[pos]? = some arr[pos] := List.getElem?_eq_getElem hlt
    have hdrop := List.drop_eq_getElem_cons hlt
    have hnext : pos + 1 ≤ INT_MAX := by omega
    unfold khashmap_empty_loop
    simp only [harr, hget]
    cases hc : arr[pos] with
    | nil =>
      simp only [hnext, if_true]
      rw [ih (pos + 1) (by omega) (by omega), hdrop, hc]
      simp
    | cons x xs =>
      rw [hdrop, hc]
      simp

theorem khashmap_inv.empty_eq {K : Kernel} {h : khashmap} {arr : List hlist_head}
    (hinv : khashmap_inv K h arr) :
    khashmap_empty (some h) = some (arr.all List.isEmpty) := by
  have hbits : h.bits < BITS_PER_LONG := by
    have := hinv.bits_le
    simp only [BITS_PER_LONG]
    omega
  have hpow : 2 ^ h.bits < 2 ^ BITS_PER_LONG := Nat.pow_lt_pow_right (by decide) hbits
  have h30 : 2 ^ h.bits ≤ 2 ^ 30 := Nat.pow_le_pow_right (by decide) hinv.bits_le
  have hmax : 0 + 2 ^ h.bits ≤ INT_MAX := by
    simp only [INT_MAX]
    omega
  simp only [khashmap_empty, khashmap_size, hbits, if_true, Nat.mod_eq_of_lt hpow]
  rw [khashmap_empty_loop_eq hinv.hash_eq (2 ^ h.bits) 0 (by simp [hinv.size_eq]) hmax]
  simp

theorem khashmap_inv.all_empty_iff {K : Kernel} {h : khashmap} {arr : List hlist_head}
    (hinv : khashmap_inv K h arr) :
    arr.all List.isEmpty = true ↔ ∀ k, khashmap_stored h k = false := by
  rw [List.all_eq_true]
  constructor
  · intro hall k
    rw [khashmap_stored_eq_false, hinv.items]
    intro it hit
    obtain ⟨c, hc, hitc⟩ := List.mem_flatten.mp hit
    have := List.isEmpty_iff.mp (hall c hc)
    rw [this] at hitc
    cases hitc
  · intro hall c hc
    rw [List.isEmpty_iff]
    cases c with
    | nil => rfl
    | cons it rest =>
      have hmem : it ∈ khashmap_items h := by
        rw [hinv.items]
        exact List.mem_flatten.mpr ⟨_, hc, List.mem_cons_self _ _⟩
      exact absurd rfl (khashmap_stored_eq_false.mp (hall it.key) it hmem)

theorem khashmap_run_append (K : Kernel) (ops1 ops2 : List khashmap_op) :
    ∀ h, khashmap_run K h (ops1 ++ ops2) =
      (khashmap_run K h ops1).bind fun h1 => khashmap_run K h1 ops2 := by
  induction ops1 with
  | nil => intro h; rfl
  | cons op ops ih =>
    intro h
    simp only [List.cons_append, khashmap_run]
    cases khashmap_step K h op with
    | none => rfl
    | some h1 => simp [ih]

/-- Keys stored after a run were stored before it or added by one of its calls. -/
theorem khashmap_inv.run_stored {K : Kernel} (ops : List khashmap_op) :
    ∀ {h h' : khashmap} {arr : List hlist_head}, khashmap_inv K h arr →
      khashmap_run K h ops = some h' → ∀ k, khashmap_stored h' k = true →
      khashmap_stored h k = true ∨ ∃ val zalloc, khashmap_op.add k val zalloc ∈ ops := by
  induction ops with
  | nil =>
    intro h h' arr _ hrun k hst
    simp only [khashmap_run, Option.some.injEq] at hrun
    subst hrun
    exact Or.inl hst
  | cons op ops ih =>
    intro h h' arr hinv hrun k hst
    cases op with
    | add key val zalloc =>
      obtain ⟨r, h1, arr1, hadd, hinv1, -, -, -, -, hstored⟩ := hinv.add key val zalloc
      simp only [khashmap_run, khashmap_step, hadd, Option.map_some', Option.some_bind]
        at hrun
      rcases ih hinv1 hrun k hst with h1st | ⟨v, z, hmem⟩
      · rcases (hstored k).mp h1st with hst0 | ⟨rfl, -⟩
        · exact Or.inl hst0
        · exact Or.inr ⟨val, zalloc, List.mem_cons_self _ _⟩
      · exact Or.inr ⟨v, z, List.mem_cons_of_mem _ hmem⟩
    | del key =>
      obtain ⟨h1, arr1, hdel, hinv1, -, hstored⟩ := hinv.del key
      simp only [khashmap_run, khashmap_step, hdel, Option.some_bind] at hrun
      rcases ih hinv1 hrun k hst with h1st | ⟨v, z, hmem⟩
      · exact Or.inl ((hstored k).mp h1st).1
      · exact Or.inr ⟨v, z, List.mem_cons_of_mem _ hmem⟩

/-- After `khashmap_del` of each key of a list, none of these keys is stored, and no
other key is stored that was not stored before. -/
theorem khashmap_inv.run_dels {K : Kernel} (keys : List Nat) :
    ∀ {h : khashmap} {arr : List hlist_head}, khashmap_inv K h arr →
      ∃ h' arr', khashmap_run K h (keys.map khashmap_op.del) = some h' ∧
        khashmap_inv K h' arr' ∧
        ∀ k, khashmap_stored h' k = true → khashmap_stored h k = true ∧ k ∉ keys := by
  induction keys with
  | nil =>
    intro h arr hinv
    exact ⟨h, arr, rfl, hinv, fun k hst => ⟨hst, List.not_mem_nil k⟩⟩
  | cons key keys ih =>
    intro h arr hinv
    obtain ⟨h1, arr1, hdel, hinv1, -, hstored⟩ := hinv.del key
    obtain ⟨h', arr', hrun, hinv', hst'⟩ := ih hinv1
    refine ⟨h', arr', by simp [khashmap_run, khashmap_step, hdel, hrun], hinv', ?_⟩
    intro k hk
    obtain ⟨hk1, hnot⟩ := hst' k hk
    obtain ⟨hk0, hne⟩ := (hstored k).mp hk1
    exact ⟨hk0, by simp [hne, hnot]⟩

/-- C9: a freshly initialized map is empty; on every map reached from it by
`khashmap_add` and `khashmap_del` calls `khashmap_empty` returns true exactly when
every bucket chain is empty, and returns false after a `khashmap_add` that returned 0;
and once `khashmap_del` has been called for every key that was added, in any order,
`khashmap_empty` returns true again. -/
theorem khashmap_empty_spec (K : Kernel) (m h0 : khashmap)
    (hK : ∀ val, K.hash_long val m.bits < 2 ^ m.bits)
    (hinit : khashmap_init K m = some (0, h0)) :
    khashmap_empty (some h0) = some true ∧
      (∀ ops h, khashmap_run K h0 ops = some h →
        (∃ b, khashmap_empty (some h) = some b ∧
          (b = true ↔ ∀ arr, h.hash = some arr → ∀ chain ∈ arr, chain = [])) ∧
        ∀ key val zalloc h', khashmap_add K h key val zalloc = some (0, h') →
          khashmap_empty (some h') = some false) ∧
      ∀ (ops : List khashmap_op) (keys : List Nat),
        (∀ key val zalloc, khashmap_op.add key val zalloc ∈ ops → key ∈ keys) →
        ∃ h, khashmap_run K h0 (ops ++ keys.map khashmap_op.del) = some h ∧
          khashmap_empty (some h) = some true := by
  obtain ⟨hinv0, -⟩ := khashmap_init_inv hK hinit
  have hst0 : ∀ k, khashmap_stored h0 k = false := by
    intro k
    rw [(khashmap_init_ok hinit).1]
    simp [khashmap_stored, khashmap_items]
  refine ⟨?_, ?_, ?_⟩
  · rw [hinv0.empty_eq, Option.some.injEq]
    exact hinv0.all_empty_iff.mpr hst0
  · intro ops h hrun
    obtain ⟨arr, hinv, -⟩ := khashmap_reach_inv hK hinit hrun
    constructor
    · refine ⟨_, hinv.empty_eq, ?_⟩
      rw [List.all_eq_true]
      constructor
      · intro hall arr' harr' chain hc
        rw [hinv.hash_eq, Option.some.injEq] at harr'
        subst harr'
        exact List.isEmpty_iff.mp (hall chain hc)
      · intro hall chain hc
        exact List.isEmpty_iff.mpr (hall arr hinv.hash_eq chain hc)
    · intro key val zalloc h' hadd
      obtain ⟨r, h1, arr1, hadd1, hinv1, -, -, -, -, hstored⟩ := hinv.add key val zalloc
      rw [hadd, Option.some.injEq, Prod.mk.injEq] at hadd1
      obtain ⟨hr, hh⟩ := hadd1
      subst hr hh
      rw [hinv1.empty_eq, Option.some.injEq, ← Bool.not_eq_true, hinv1.all_empty_iff]
      intro hall
      have := (hstored key).mpr (Or.inr ⟨rfl, rfl⟩)
      rw [hall key] at this
      cases this
  · intro ops keys hkeys
    obtain ⟨h1, arr1, hrun1, hinv1, -⟩ := khashmap_inv.run ops hinv0
    obtain ⟨h2, arr2, hrun2, hinv2, hst2⟩ := khashmap_inv.run_dels keys hinv1
    refine ⟨h2, by simp [khashmap_run_append, hrun1, hrun2], ?_⟩
    rw [hinv2.empty_eq, Option.some.injEq, hinv2.all_empty_iff]
    intro k
    rw [← Bool.not_eq_true]
    intro hk
    obtain ⟨hk1, hnot⟩ := hst2 k hk
    rcases khashmap_inv.run_stored ops hinv0 hrun1 k hk1 with hk0 | ⟨v, z, hmem⟩
    · rw [hst0 k] at hk0
      cases hk0
    · exact hnot (hkeys k v z hmem)

theorem khashmap_empty_spec_witness :
    (∀ val, exampleKernel.hash_long val (DEFINE_KHASHMAP_BITS 2).bits <
        2 ^ (DEFINE_KHASHMAP_BITS 2).bits) ∧
      khashmap_init exampleKernel (DEFINE_KHASHMAP_BITS 2) = some (0, exampleFresh) ∧
      khashmap_empty (some exampleFresh) = some true ∧
      khashmap_empty (some exampleMap) = some false ∧
      ∃ h, khashmap_run exampleKernel exampleFresh
          (exampleOps ++ [21, 5, 6].map khashmap_op.del) = some h ∧
        khashmap_empty (some h) = some true :=
  ⟨exampleKernel_range 2, by decide,
    (khashmap_empty_spec exampleKernel (DEFINE_KHASHMAP_BITS 2) exampleFresh
      (exampleKernel_range 2) (by decide)).1,
    by decide,
    (khashmap_empty_spec exampleKernel (DEFINE_KHASHMAP_BITS 2) exampleFresh
      (exampleKernel_range 2) (by decide)).2.2 exampleOps [21, 5, 6]
      (by
        intro key val zalloc hmem
        simp only [exampleOps, List.mem_cons, khashmap_op.add.injEq, List.mem_nil_iff,
          or_false, reduceCtorEq] at hmem
        rcases hmem with ⟨rfl, -⟩ | ⟨rfl, -⟩ | ⟨rfl, -⟩ <;> decide)⟩

/-! ## Bucket placement -/

/-- A call rewrites at most the chain of the bucket its key hashes to. -/
theorem khashmap_step_frame {K : Kernel} {h h' : khashmap} {op : khashmap_op}
    {arr arr' : List hlist_head} (hstep : khashmap_step K h op = some h')
    (harr : h.hash = some arr) (harr' : h'.hash = some arr') :
    ∀ i, i ≠ khashmap_hashfn K h op.key → arr'[i]? = arr[i]? := by
  intro i hi
  cases op with
  | add key val zalloc =>
    simp only [khashmap_step, Option.map_eq_some'] at hstep
    obtain ⟨⟨r, h1⟩, hadd, rfl⟩ := hstep
    obtain ⟨arr0, chain, harr0, -, hcases⟩ := khashmap_add_cases hadd
    rw [harr, Option.some.injEq] at harr0
    subst harr0
    rcases hcases with ⟨p, it, -, -, -, rfl⟩ | ⟨-, -, -, rfl⟩ | ⟨-, -, -, rfl⟩
    · simp only [Option.some.injEq] at harr'
      subst harr'
      exact List.getElem?_set_ne (fun e => hi e.symm)
    · simp only [Option.some.injEq] at harr'
      subst harr'
      exact List.getElem?_set_ne (fun e => hi e.symm)
    · simp only at harr'
      rw [harr, Option.some.injEq] at harr'
      rw [harr']
  | del key =>
    simp only [khashmap_step] at hstep
    obtain ⟨arr0, chain, harr0, -, hcases⟩ := khashmap_del_cases hstep
    rw [harr, Option.some.injEq] at harr0
    subst harr0
    rcases hcases with ⟨p, it, -, -, -, rfl⟩ | ⟨-, rfl⟩
    · simp only [Option.some.injEq] at harr'
      subst harr'
      exact List.getElem?_set_ne (fun e => hi e.symm)
    · rw [harr, Option.some.injEq] at harr'
      rw [harr']

/-- C10: after any sequence of `khashmap_add` and `khashmap_del` calls on a freshly
initialized map, every item is on the chain of the bucket `khashmap_hashfn(map, key)`;
and a further call returns, leaves every other bucket than the one its key hashes to
as it is, and leaves every item that is still stored (an item with the same key) in
the bucket where it was. -/
theorem khashmap_bucket_placement (K : Kernel) (m h0 : khashmap) (ops : List khashmap_op)
    (hK : ∀ val, K.hash_long val m.bits < 2 ^ m.bits)
    (hinit : khashmap_init K m = some (0, h0)) :
    ∃ h arr, khashmap_run K h0 ops = some h ∧ h.hash = some arr ∧
      (∀ i chain, arr[i]? = some chain →
        ∀ it ∈ chain, khashmap_hashfn K h it.key = i) ∧
      ∀ op, ∃ h' arr', khashmap_step K h op = some h' ∧ h'.hash = some arr' ∧
        (∀ i, i ≠ khashmap_hashfn K h op.key → arr'[i]? = arr[i]?) ∧
        ∀ (i j : Nat) (c c' : hlist_head) (it it' : khashmap_item),
          arr[i]? = some c → arr'[j]? = some c' →
          it ∈ c → it' ∈ c' → it'.key = it.key → j = i := by
  obtain ⟨hinv0, -⟩ := khashmap_init_inv hK hinit
  obtain ⟨h, arr, hrun, hinv, -⟩ := khashmap_inv.run ops hinv0
  refine ⟨h, arr, hrun, hinv.hash_eq, hinv.placed, fun op => ?_⟩
  obtain ⟨h', arr', hstep, hinv', hbits⟩ := hinv.step op
  refine ⟨h', arr', hstep, hinv'.hash_eq,
    khashmap_step_frame hstep hinv.hash_eq hinv'.hash_eq, ?_⟩
  intro i j c c' it it' hi hj hit hit' hk
  have h1 := hinv.placed i c hi it hit
  have h2 := hinv'.placed j c' hj it' hit'
  simp only [khashmap_hashfn, hbits, hk] at h1 h2
  rw [← h2, ← h1]

theorem khashmap_bucket_placement_witness :
    (∀ val, exampleKernel.hash_long val (DEFINE_KHASHMAP_BITS 2).bits <
        2 ^ (DEFINE_KHASHMAP_BITS 2).bits) ∧
      khashmap_init exampleKernel (DEFINE_KHASHMAP_BITS 2) = some (0, exampleFresh) ∧
      ∃ h arr, khashmap_run exampleKernel exampleFresh exampleOps = some h ∧
        h.hash = some arr ∧
        (∀ i chain, arr[i]? = some chain →
          ∀ it ∈ chain, khashmap_hashfn exampleKernel h it.key = i) ∧
        ∀ op, ∃ h' arr', khashmap_step exampleKernel h op = some h' ∧
          h'.hash = some arr' ∧
          (∀ i, i ≠ khashmap_hashfn exampleKernel h op.key → arr'[i]? = arr[i]?) ∧
          ∀ (i j : Nat) (c c' : hlist_head) (it it' : khashmap_item),
            arr[i]? = some c → arr'[j]? = some c' →
            it ∈ c → it' ∈ c' → it'.key = it.key → j = i :=
  ⟨exampleKernel_range 2, by decide,
    khashmap_bucket_placement exampleKernel (DEFINE_KHASHMAP_BITS 2) exampleFresh
      exampleOps (exampleKernel_range 2) (by decide)⟩

/-! ## Iteration -/

theorem khashmap_for_each_entry_loop_eq {h : khashmap} {arr : List hlist_head}
    (harr : h.hash = some arr) (n : Nat) :
    ∀ pos, pos + n = arr.length → pos + n ≤ INT_MAX →
      khashmap_for_each_entry_loop h n pos = some (arr.drop pos).flatten := by
  induction n with
  | zero =>
    intro pos hlen _
    have : arr.drop pos = [] := List.drop_of_length_le (by omega)
    simp [khashmap_for_each_entry_loop, this]
  | succ n ih =>
    intro pos hlen hmax
    have hlt : pos < arr.length := by omega
    have hget : arr[pos]? = some arr[pos] := List.getElem?_eq_getElem hlt
    have hdrop := List.drop_eq_getElem_cons hlt
    have hnext : pos + 1 ≤ INT_MAX := by omega
    unfold khashmap_for_each_entry_loop
    simp only [harr, hget, hnext, if_true]
    rw [ih (pos + 1) (by omega) (by omega)]
    conv_rhs => rw [hdrop]
    simp only [Option.map_some', List.flatten_cons]

theorem khashmap_inv.size {K : Kernel} {h : khashmap} {arr : List hlist_head}
    (hinv : khashmap_inv K h arr) :
    khashmap_size h = some (2 ^ h.bits) ∧ 0 + 2 ^ h.bits ≤ INT_MAX := by
  have hbits : h.bits < BITS_PER_LONG := by
    have := hinv.bits_le
    simp only [BITS_PER_LONG]
    omega
  have hpow : 2 ^ h.bits < 2 ^ BITS_PER_LONG := Nat.pow_lt_pow_right (by decide) hbits
  have h30 : 2 ^ h.bits ≤ 2 ^ 30 := Nat.pow_le_pow_right (by decide) hinv.bits_le
  refine ⟨by simp [khashmap_size, hbits, Nat.mod_eq_of_lt hpow], ?_⟩
  simp only [INT_MAX]
  omega

/-- Under the invariant `khashmap_for_each_entry` yields the items of the map, bucket
after bucket. -/
theorem khashmap_inv.for_each_entry_eq {K : Kernel} {h : khashmap} {arr : List hlist_head}
    (hinv : khashmap_inv K h arr) :
    khashmap_for_each_entry h = some arr.flatten := by
  obtain ⟨hsize, hmax⟩ := hinv.size
  simp only [khashmap_for_each_entry, hsize]
  rw [khashmap_for_each_entry_loop_eq hinv.hash_eq (2 ^ h.bits) 0 (by simp [hinv.size_eq]) hmax]
  simp

theorem khashmap_inv.items_nodup {K : Kernel} {h : khashmap} {arr : List hlist_head}
    (hinv : khashmap_inv K h arr) : arr.flatten.Nodup := by
  have := hinv.keys_nodup
  rw [hinv.items] at this
  exact List.Nodup.of_map _ this

theorem flatten_length_set_cons {arr : List hlist_head} {b : Nat} {chain : hlist_head}
    (x : khashmap_item) (hb : arr[b]? = some chain) :
    (arr.set b (x :: chain)).flatten.length = arr.flatten.length + 1 := by
  induction arr generalizing b with
  | nil => simp at hb
  | cons c rest ih =>
    cases b with
    | zero =>
      simp only [List.getElem?_cons_zero, Option.some.injEq] at hb
      subst hb
      simp only [List.set_cons_zero, List.flatten_cons, List.length_append, List.length_cons]
      omega
    | succ b =>
      simp only [List.getElem?_cons_succ] at hb
      simp only [List.set_cons_succ, List.flatten_cons, List.length_append, ih hb]
      omega

/-- Adding pairs with distinct keys, none of them stored, with allocations that
succeed, adds as many items as there are pairs. -/
theorem khashmap_inv.run_adds {K : Kernel} (kvs : List (Nat × Nat)) :
    ∀ {h : khashmap} {arr : List hlist_head}, khashmap_inv K h arr →
      (kvs.map Prod.fst).Nodup → (∀ kv ∈ kvs, khashmap_stored h kv.1 = false) →
      ∃ h' arr', khashmap_run K h (khashmap_adds kvs) = some h' ∧ khashmap_inv K h' arr' ∧
        (khashmap_items h').length = (khashmap_items h).length + kvs.length := by
  induction kvs with
  | nil =>
    intro h arr hinv _ _
    exact ⟨h, arr, rfl, hinv, rfl⟩
  | cons kv rest ih =>
    intro h arr hinv hnd hns
    simp only [List.map_cons, List.nodup_cons, List.mem_map, not_exists, not_and] at hnd
    obtain ⟨chain, hb⟩ := hinv.bucket kv.1
    have hst : khashmap_stored h kv.1 = false := hns kv (List.mem_cons_self _ _)
    have hadd := hinv.add_fresh hst hb kv.2
    have hinv1 := hinv.insert hst hb kv.2
    have hns1 : ∀ kv' ∈ rest, khashmap_stored
        { h with hash := some (arr.set (khashmap_hashfn K h kv.1)
          ({ key := kv.1, val := kv.2 } :: chain)) } kv'.1 = false := by
      intro kv' hkv'
      rw [← Bool.not_eq_true, khashmap_stored_insert hb, ← hinv.eq_mk]
      rintro (h1 | h2)
      · rw [hns kv' (List.mem_cons_of_mem _ hkv')] at h1
        cases h1
      · exact hnd.1 kv' hkv' h2
    obtain ⟨h', arr', hrun, hinv', hlen⟩ := ih hinv1 hnd.2 hns1
    refine ⟨h', arr', ?_, hinv', ?_⟩
    · simp only [khashmap_adds, List.map_cons, khashmap_run, khashmap_step, hadd,
        Option.map_some', Option.some_bind]
      exact hrun
    · rw [hlen]
      simp only [khashmap_items, hinv.hash_eq, flatten_length_set_cons _ hb,
        List.length_cons]
      omega

/-- C11: on a map reached from a successful `khashmap_init`, `khashmap_for_each_entry`
yields the chains of buckets 0 to `2 ^ bits - 1` one after the other, each in chain
order; every stored item is yielded and none twice; and after `khashmap_add` of n pairs
with distinct keys on a fresh map, every allocation succeeding, it yields n items. -/
theorem khashmap_for_each_entry_complete (K : Kernel) (m h0 h : khashmap)
    (ops : List khashmap_op) (hK : ∀ val, K.hash_long val m.bits < 2 ^ m.bits)
    (hinit : khashmap_init K m = some (0, h0))
    (hrun : khashmap_run K h0 ops = some h) :
    (∃ arr entries, h.hash = some arr ∧ arr.length = 2 ^ m.bits ∧
        khashmap_for_each_entry h = some entries ∧ entries = arr.flatten ∧
        entries.Nodup ∧
        ∀ it, it ∈ entries ↔ ∃ (i : Nat) (chain : hlist_head),
          arr[i]? = some chain ∧ it ∈ chain) ∧
      ∀ kvs : List (Nat × Nat), (kvs.map Prod.fst).Nodup →
        ∃ h1 entries1, khashmap_run K h0 (khashmap_adds kvs) = some h1 ∧
          khashmap_for_each_entry h1 = some entries1 ∧ entries1.length = kvs.length := by
  obtain ⟨arr, hinv, hbits⟩ := khashmap_reach_inv hK hinit hrun
  constructor
  · refine ⟨arr, arr.flatten, hinv.hash_eq, by rw [hinv.size_eq, hbits],
      hinv.for_each_entry_eq, rfl, hinv.items_nodup, fun it => ?_⟩
    rw [List.mem_flatten]
    constructor
    · rintro ⟨c, hc, hit⟩
      obtain ⟨i, hi⟩ := List.mem_iff_getElem?.mp hc
      exact ⟨i, c, hi, hit⟩
    · rintro ⟨i, c, hi, hit⟩
      exact ⟨c, List.mem_iff_getElem?.mpr ⟨i, hi⟩, hit⟩
  · intro kvs hnd
    obtain ⟨hinv0, -⟩ := khashmap_init_inv hK hinit
    have hst0 : ∀ kv ∈ kvs, khashmap_stored h0 kv.1 = false := by
      intro kv _
      rw [(khashmap_init_ok hinit).1]
      simp [khashmap_stored, khashmap_items]
    obtain ⟨h1, arr1, hrun1, hinv1, hlen⟩ := khashmap_inv.run_adds kvs hinv0 hnd hst0
    refine ⟨h1, arr1.flatten, hrun1, hinv1.for_each_entry_eq, ?_⟩
    rw [← hinv1.items, hlen, (khashmap_init_ok hinit).1]
    simp [khashmap_items]

theorem khashmap_for_each_entry_complete_witness :
    (∀ val, exampleKernel.hash_long val (DEFINE_KHASHMAP_BITS 2).bits <
        2 ^ (DEFINE_KHASHMAP_BITS 2).bits) ∧
      khashmap_init exampleKernel (DEFINE_KHASHMAP_BITS 2) = some (0, exampleFresh) ∧
      khashmap_run exampleKernel exampleFresh exampleOps = some exampleMap ∧
      khashmap_for_each_entry exampleMap = some [⟨21, 8⟩, ⟨5, 7⟩] ∧
      ∃ h1 entries1, khashmap_run exampleKernel exampleFresh
          (khashmap_adds [(5, 7), (21, 8), (2, 0)]) = some h1 ∧
        khashmap_for_each_entry h1 = some entries1 ∧
        entries1.length = [((5 : Nat), (7 : Nat)), (21, 8), (2, 0)].length :=
  ⟨exampleKernel_range 2, by decide, by decide, by decide,
    (khashmap_for_each_entry_complete exampleKernel (DEFINE_KHASHMAP_BITS 2) exampleFresh
      exampleMap exampleOps (exampleKernel_range 2) (by decide) (by decide)).2
      [(5, 7), (21, 8), (2, 0)] (by decide)⟩

theorem getElem?_append_cons_length {pre post : List hlist_head} {c : hlist_head} {pos : Nat}
    (hpos : pre.length = pos) : (pre ++ c :: post)[pos]? = some c := by
  rw [List.getElem?_append_right (by omega), ← hpos, Nat.sub_self]
  simp

theorem set_append_cons_length {pre post : List hlist_head} {c x : hlist_head} {pos : Nat}
    (hpos : pre.length = pos) : (pre ++ c :: post).set pos x = pre ++ x :: post := by
  rw [List.set_append_right pos x (by omega), ← hpos, Nat.sub_self]
  simp

/-- C20: on a map reached from a successful `khashmap_init`, `khashmap_for_each_entry`
yields the pair `(k, v)` exactly when `khashmap_find_item(k)` returns an item and that
item holds `(k, v)`. -/
theorem khashmap_iteration_lookup_agree (K : Kernel) (m h0 h : khashmap)
    (ops : List khashmap_op) (hK : ∀ val, K.hash_long val m.bits < 2 ^ m.bits)
    (hinit : khashmap_init K m = some (0, h0))
    (hrun : khashmap_run K h0 ops = some h) :
    ∃ entries, khashmap_for_each_entry h = some entries ∧
      ∀ k v, { key := k, val := v } ∈ entries ↔
        ∃ item, khashmap_find_item K h k = some (some item) ∧
          item_read h item = some { key := k, val := v } := by
  obtain ⟨arr, hinv, -⟩ := khashmap_reach_inv hK hinit hrun
  refine ⟨arr.flatten, hinv.for_each_entry_eq, fun k v => ?_⟩
  constructor
  · intro hmem
    rw [← hinv.items] at hmem
    obtain ⟨chain, hb⟩ := hinv.bucket k
    cases hs : hlist_scan k chain with
    | none =>
      have hst := (hinv.stored_iff_scan hb).mpr hs
      exact absurd rfl (khashmap_stored_eq_false.mp hst _ hmem)
    | some p =>
      obtain ⟨it, hp, hk⟩ := hlist_scan_eq_some hs
      have hit : it ∈ khashmap_items h :=
        hinv.bucket_subset hb (List.mem_iff_getElem?.mpr ⟨p, hp⟩)
      have heq : it = { key := k, val := v } :=
        List.inj_on_of_nodup_map hinv.keys_nodup hit hmem hk
      refine ⟨{ bucket := khashmap_hashfn K h k, pos := p }, ?_, ?_⟩
      · simp [khashmap_find_item, hinv.hash_eq, hb, hs]
      · simp [item_read, hinv.hash_eq, hb, hp, heq]
  · rintro ⟨item, -, hread⟩
    simp only [item_read, hinv.hash_eq] at hread
    cases hc : arr[item.bucket]? with
    | none => simp [hc] at hread
    | some c =>
      simp only [hc] at hread
      exact List.mem_flatten.mpr ⟨c, List.mem_iff_getElem?.mpr ⟨_, hc⟩,
        List.mem_iff_getElem?.mpr ⟨_, hread⟩⟩

theorem khashmap_iteration_lookup_agree_witness :
    (∀ val, exampleKernel.hash_long val (DEFINE_KHASHMAP_BITS 2).bits <
        2 ^ (DEFINE_KHASHMAP_BITS 2).bits) ∧
      khashmap_init exampleKernel (DEFINE_KHASHMAP_BITS 2) = some (0, exampleFresh) ∧
      khashmap_run exampleKernel exampleFresh exampleOps = some exampleMap ∧
      ∃ entries, khashmap_for_each_entry exampleMap = some entries ∧
        ∀ k v, { key := k, val := v } ∈ entries ↔
          ∃ item, khashmap_find_item exampleKernel exampleMap k = some (some item) ∧
            item_read exampleMap item = some { key := k, val := v } :=
  ⟨exampleKernel_range 2, by decide, by decide,
    khashmap_iteration_lookup_agree exampleKernel (DEFINE_KHASHMAP_BITS 2) exampleFresh
      exampleMap exampleOps (exampleKernel_range 2) (by decide) (by decide)⟩

/-! ## Head insertion -/

/-- C18: on a map reached from a successful `khashmap_init` that does not store the
key, a `khashmap_add(key, val)` that returns 0 makes the chain of bucket
`khashmap_hashfn(map, key)` the new item followed by the previous chain, leaves every
other chain as it is, and the map holds one item more. -/
theorem khashmap_add_head_insert (K : Kernel) (m h0 h h' : khashmap)
    (ops : List khashmap_op) (key val : Nat) (zalloc : Bool)
    (hK : ∀ val, K.hash_long val m.bits < 2 ^ m.bits)
    (hinit : khashmap_init K m = some (0, h0))
    (hrun : khashmap_run K h0 ops = some h)
    (hns : ¬ ∃ it ∈ khashmap_items h, it.key = key)
    (hadd : khashmap_add K h key val zalloc = some (0, h')) :
    ∃ arr arr' chain, h.hash = some arr ∧ h'.hash = some arr' ∧ h'.bits = h.bits ∧
      arr[khashmap_hashfn K h key]? = some chain ∧
      arr'[khashmap_hashfn K h key]? = some ({ key := key, val := val } :: chain) ∧
      arr'.length = arr.length ∧
      (∀ i, i ≠ khashmap_hashfn K h key → arr'[i]? = arr[i]?) ∧
      (khashmap_items h').length = (khashmap_items h).length + 1 := by
  obtain ⟨arr, hinv, -⟩ := khashmap_reach_inv hK hinit hrun
  rw [← khashmap_stored_iff, Bool.not_eq_true] at hns
  obtain ⟨chain, hb⟩ := hinv.bucket key
  have hlt : khashmap_hashfn K h key < arr.length := (List.getElem?_eq_some.mp hb).1
  cases zalloc with
  | false =>
    rw [hinv.add_fail hns val] at hadd
    simp [ENOMEM] at hadd
  | true =>
    rw [hinv.add_fresh hns hb val, Option.some.injEq, Prod.mk.injEq] at hadd
    obtain ⟨-, rfl⟩ := hadd
    refine ⟨arr, _, chain, hinv.hash_eq, rfl, rfl, hb, List.getElem?_set_self hlt,
      List.length_set _ _ _, fun i hi => List.getElem?_set_ne (fun e => hi e.symm), ?_⟩
    simp only [khashmap_items, hinv.hash_eq]
    exact flatten_length_set_cons _ hb

theorem khashmap_add_head_insert_witness :
    (∀ val, exampleKernel.hash_long val (DEFINE_KHASHMAP_BITS 2).bits <
        2 ^ (DEFINE_KHASHMAP_BITS 2).bits) ∧
      khashmap_init exampleKernel (DEFINE_KHASHMAP_BITS 2) = some (0, exampleFresh) ∧
      khashmap_run exampleKernel exampleFresh exampleOps = some exampleMap ∧
      (¬ ∃ it ∈ khashmap_items exampleMap, it.key = 9) ∧
      khashmap_add exampleKernel exampleMap 9 3 true =
        some (0, { bits := 2, hash := some [[], [⟨9, 3⟩, ⟨21, 8⟩, ⟨5, 7⟩], [], []] }) ∧
      ∃ arr arr' chain, exampleMap.hash = some arr ∧
        some [[], [⟨9, 3⟩, ⟨21, 8⟩, ⟨5, 7⟩], [], []] = some arr' ∧
        (2 : Nat) = exampleMap.bits ∧
        arr[khashmap_hashfn exampleKernel exampleMap 9]? = some chain ∧
        arr'[khashmap_hashfn exampleKernel exampleMap 9]? =
          some ({ key := 9, val := 3 } :: chain) ∧
        arr'.length = arr.length ∧
        (∀ i, i ≠ khashmap_hashfn exampleKernel exampleMap 9 → arr'[i]? = arr[i]?) ∧
        (khashmap_items
          { bits := 2, hash := some [[], [⟨9, 3⟩, ⟨21, 8⟩, ⟨5, 7⟩], [], []] }).length =
          (khashmap_items exampleMap).length + 1 :=
  ⟨exampleKernel_range 2, by decide, by decide, by decide, by decide,
    khashmap_add_head_insert exampleKernel (DEFINE_KHASHMAP_BITS 2) exampleFresh
      exampleMap { bits := 2, hash := some [[], [⟨9, 3⟩, ⟨21, 8⟩, ⟨5, 7⟩], [], []] }
      exampleOps 9 3 true (exampleKernel_range 2) (by decide) (by decide) (by decide)
      (by decide)⟩

/-! ## Traversal that tolerates removal, and destruction -/

theorem hlist_for_each_entry_safe_eq (unlink : khashmap_item → Bool) (chain : hlist_head) :
    hlist_for_each_entry_safe unlink chain =
      (chain, chain.filter fun it => !unlink it) := by
  induction chain with
  | nil => rfl
  | cons it rest ih =>
    simp only [hlist_for_each_entry_safe, ih, List.filter_cons]
    cases unlink it <;> simp

theorem khashmap_for_each_entry_safe_loop_eq (unlink : khashmap_item → Bool) (n : Nat) :
    ∀ (pos : Nat) (pre post : List hlist_head) (h : khashmap),
      h.hash = some (pre ++ post) → pre.length = pos → post.length = n →
      pos + n ≤ INT_MAX →
      khashmap_for_each_entry_safe_loop unlink n pos h =
        some (post.flatten,
          { h with hash := some (pre ++ post.map (List.filter fun it => !unlink it)) }) := by
  induction n with
  | zero =>
    intro pos pre post h harr _ hpost _
    have : post = [] := List.length_eq_zero.mp hpost
    subst this
    cases h
    simp only [List.append_nil] at harr
    simp [khashmap_for_each_entry_safe_loop, harr]
  | succ n ih =>
    intro pos pre post h harr hpre hpost hmax
    cases post with
    | nil => simp at hpost
    | cons c post =>
      have hnext : pos + 1 ≤ INT_MAX := by omega
      have hlen : post.length = n := by simpa using hpost
      unfold khashmap_for_each_entry_safe_loop
      simp only [harr, getElem?_append_cons_length hpre, hnext, if_true,
        set_append_cons_length hpre, hlist_for_each_entry_safe_eq]
      rw [ih (pos + 1) (pre ++ [c.filter fun it => !unlink it]) post _ (by simp)
        (by simp [hpre]) hlen (by omega)]
      simp

/-- Under the invariant the traversal that tolerates removal runs its body on the items
that `khashmap_for_each_entry` yields, whichever items the body unlinks, and leaves the
items that were not unlinked. -/
theorem khashmap_inv.for_each_entry_safe_eq {K : Kernel} {h : khashmap}
    {arr : List hlist_head} (hinv : khashmap_inv K h arr) (unlink : khashmap_item → Bool) :
    khashmap_for_each_entry_safe unlink h =
      some (arr.flatten,
        { h with hash := some (arr.map (List.filter fun it => !unlink it)) }) := by
  obtain ⟨hsize, hmax⟩ := hinv.size
  simp only [khashmap_for_each_entry_safe, hsize]
  have := khashmap_for_each_entry_safe_loop_eq unlink (2 ^ h.bits) 0 [] arr h
    (by simpa using hinv.hash_eq) rfl hinv.size_eq hmax
  simpa using this

theorem map_filter_none (arr : List hlist_head) :
    arr.map (List.filter fun it => !(fun _ => true) it) = List.replicate arr.length [] := by
  rw [List.eq_replicate_iff]
  refine ⟨by simp, fun c hc => ?_⟩
  obtain ⟨c', -, rfl⟩ := List.mem_map.mp hc
  simp

/-- C19: on a map reached from a successful `khashmap_init`,
`khashmap_for_each_entry_safe` with the body of `khashmap_destroy`, which unlinks and
frees the current item, runs the body on the items `khashmap_for_each_entry` yields on
the map before, in that order and each once, and leaves every chain empty; it runs on
these same items whichever of them the body unlinks. -/
theorem khashmap_for_each_entry_safe_destroy (K : Kernel) (m h0 h : khashmap)
    (ops : List khashmap_op) (hK : ∀ val, K.hash_long val m.bits < 2 ^ m.bits)
    (hinit : khashmap_init K m = some (0, h0))
    (hrun : khashmap_run K h0 ops = some h) :
    ∃ visited h', khashmap_for_each_entry_safe (fun _ => true) h = some (visited, h') ∧
      khashmap_for_each_entry h = some visited ∧ visited.Nodup ∧
      h'.bits = h.bits ∧ h'.hash = some (List.replicate (2 ^ h.bits) []) ∧
      ∀ unlink : khashmap_item → Bool, ∃ h'',
        khashmap_for_each_entry_safe unlink h = some (visited, h'') ∧
        khashmap_items h'' = visited.filter fun it => !unlink it := by
  obtain ⟨arr, hinv, -⟩ := khashmap_reach_inv hK hinit hrun
  refine ⟨arr.flatten, _, hinv.for_each_entry_safe_eq _, hinv.for_each_entry_eq,
    hinv.items_nodup, rfl, ?_, fun unlink => ⟨_, hinv.for_each_entry_safe_eq unlink, ?_⟩⟩
  · simp only [map_filter_none, hinv.size_eq]
  · simp only [khashmap_items, List.filter_flatten]

theorem khashmap_for_each_entry_safe_destroy_witness :
    (∀ val, exampleKernel.hash_long val (DEFINE_KHASHMAP_BITS 2).bits <
        2 ^ (DEFINE_KHASHMAP_BITS 2).bits) ∧
      khashmap_init exampleKernel (DEFINE_KHASHMAP_BITS 2) = some (0, exampleFresh) ∧
      khashmap_run exampleKernel exampleFresh exampleOps = some exampleMap ∧
      khashmap_for_each_entry_safe (fun _ => true) exampleMap =
        some ([⟨21, 8⟩, ⟨5, 7⟩], exampleFresh) ∧
      ∃ visited h', khashmap_for_each_entry_safe (fun _ => true) exampleMap =
          some (visited, h') ∧
        khashmap_for_each_entry exampleMap = some visited ∧ visited.Nodup ∧
        h'.bits = exampleMap.bits ∧
        h'.hash = some (List.replicate (2 ^ exampleMap.bits) []) ∧
        ∀ unlink : khashmap_item → Bool, ∃ h'',
          khashmap_for_each_entry_safe unlink exampleMap = some (visited, h'') ∧
          khashmap_items h'' = visited.filter fun it => !unlink it :=
  ⟨exampleKernel_range 2, by decide, by decide, by decide,
    khashmap_for_each_entry_safe_destroy exampleKernel (DEFINE_KHASHMAP_BITS 2)
      exampleFresh exampleMap exampleOps (exampleKernel_range 2) (by decide) (by decide)⟩

theorem khashmap_size_of_le {h : khashmap} (hle : h.bits ≤ 30) :
    khashmap_size h = some (2 ^ h.bits) ∧
      khashmap_size_in_bytes h = some (2 ^ h.bits * sizeof_hlist_head) := by
  have hbits : h.bits < BITS_PER_LONG := by
    simp only [BITS_PER_LONG]
    omega
  have hpow : 2 ^ h.bits < 2 ^ BITS_PER_LONG := Nat.pow_lt_pow_right (by decide) hbits
  have h30 : 2 ^ h.bits ≤ 2 ^ 30 := Nat.pow_le_pow_right (by decide) hle
  have hsize : khashmap_size h = some (2 ^ h.bits) := by
    simp [khashmap_size, hbits, Nat.mod_eq_of_lt hpow]
  refine ⟨hsize, ?_⟩
  have hlt : 2 ^ h.bits * sizeof_hlist_head < 2 ^ BITS_PER_LONG := by
    simp only [sizeof_hlist_head, BITS_PER_LONG]
    omega
  simp [khashmap_size_in_bytes, hsize, Nat.mod_eq_of_lt hlt]

/-- Under the invariant `khashmap_destroy` releases the items in the order of
`khashmap_for_each_entry`, then the bucket array, and does not assign `hash`. -/
theorem khashmap_inv.destroy_eq {K : Kernel} {h : khashmap} {arr : List hlist_head}
    (hinv : khashmap_inv K h arr) :
    ∃ call, khashmap_free K { h with hash := some (List.replicate (2 ^ h.bits) []) } =
        some call ∧
      khashmap_destroy K (some h) =
        some (some { h with hash := some (List.replicate (2 ^ h.bits) []) },
          arr.flatten.map kernel_call.kmem_cache_free ++ [call]) := by
  have hbytes : khashmap_size_in_bytes
      { h with hash := some (List.replicate (2 ^ h.bits) []) } =
        some (2 ^ h.bits * sizeof_hlist_head) :=
    (khashmap_size_of_le (show ({ h with hash := none } : khashmap).bits ≤ 30 from
      hinv.bits_le)).2
  have hfree : ∃ call, khashmap_free K
      { h with hash := some (List.replicate (2 ^ h.bits) []) } = some call := by
    simp only [khashmap_free, hbytes]
    by_cases hlt : 2 ^ h.bits * sizeof_hlist_head < K.PAGE_SIZE
    · exact ⟨_, if_pos hlt⟩
    · exact ⟨_, if_neg hlt⟩
  obtain ⟨call, hcall⟩ := hfree
  refine ⟨call, hcall, ?_⟩
  have hsafe := hinv.for_each_entry_safe_eq (fun _ => true)
  rw [map_filter_none, hinv.size_eq] at hsafe
  simp only [khashmap_destroy, hsafe, hcall]

/-- C13: `khashmap_destroy` on a map reached from a successful `khashmap_init` releases
every item, in the order of `khashmap_for_each_entry`, and then the bucket array through
`khashmap_free`; the map object is left with no item, with `bits` as before and with
`hash` still holding the address of the released bucket array: `hash` is not `NULL`. -/
theorem khashmap_destroy_releases (K : Kernel) (m h0 h : khashmap)
    (ops : List khashmap_op) (hK : ∀ val, K.hash_long val m.bits < 2 ^ m.bits)
    (hinit : khashmap_init K m = some (0, h0))
    (hrun : khashmap_run K h0 ops = some h) :
    ∃ h' call, khashmap_destroy K (some h) =
        some (some h', (khashmap_items h).map kernel_call.kmem_cache_free ++ [call]) ∧
      khashmap_free K h' = some call ∧
      (call = kernel_call.kfree h'.hash ∨ call = kernel_call.vfree h'.hash) ∧
      khashmap_items h' = [] ∧ h'.bits = h.bits ∧
      h'.hash = some (List.replicate (2 ^ h.bits) []) ∧ h'.hash ≠ none := by
  obtain ⟨arr, hinv, -⟩ := khashmap_reach_inv hK hinit hrun
  obtain ⟨call, hcall, hdestroy⟩ := hinv.destroy_eq
  refine ⟨_, call, by rw [hinv.items]; exact hdestroy, hcall, ?_, ?_, rfl, rfl, by simp⟩
  · unfold khashmap_free at hcall
    cases hb : khashmap_size_in_bytes
        { h with hash := some (List.replicate (2 ^ h.bits) []) } with
    | none => simp [hb] at hcall
    | some size =>
      simp only [hb] at hcall
      split at hcall
      · exact Or.inl (Option.some.inj hcall).symm
      · exact Or.inr (Option.some.inj hcall).symm
  · simp [khashmap_items]

theorem khashmap_destroy_releases_witness :
    (∀ val, exampleKernel.hash_long val (DEFINE_KHASHMAP_BITS 2).bits <
        2 ^ (DEFINE_KHASHMAP_BITS 2).bits) ∧
      khashmap_init exampleKernel (DEFINE_KHASHMAP_BITS 2) = some (0, exampleFresh) ∧
      khashmap_run exampleKernel exampleFresh exampleOps = some exampleMap ∧
      ∃ h' call, khashmap_destroy exampleKernel (some exampleMap) =
          some (some h',
            (khashmap_items exampleMap).map kernel_call.kmem_cache_free ++ [call]) ∧
        khashmap_free exampleKernel h' = some call ∧
        (call = kernel_call.kfree h'.hash ∨ call = kernel_call.vfree h'.hash) ∧
        khashmap_items h' = [] ∧ h'.bits = exampleMap.bits ∧
        h'.hash = some (List.replicate (2 ^ exampleMap.bits) []) ∧ h'.hash ≠ none :=
  ⟨exampleKernel_range 2, by decide, by decide,
    khashmap_destroy_releases exampleKernel (DEFINE_KHASHMAP_BITS 2) exampleFresh
      exampleMap exampleOps (exampleKernel_range 2) (by decide) (by decide)⟩

/-- C13, as stated, fails: after `khashmap_destroy` on the map with the keys 21 and 5
the map object is not the object `DEFINE_KHASHMAP_BITS` defines for the same `bits`:
its `hash` is not `NULL`. -/
theorem khashmap_destroy_keeps_hash :
    khashmap_init exampleKernel (DEFINE_KHASHMAP_BITS 2) = some (0, exampleFresh) ∧
      khashmap_run exampleKernel exampleFresh exampleOps = some exampleMap ∧
      khashmap_destroy exampleKernel (some exampleMap) =
        some (some exampleFresh, [.kmem_cache_free ⟨21, 8⟩, .kmem_cache_free ⟨5, 7⟩,
          .kfree (some [[], [], [], []])]) ∧
      exampleFresh ≠ DEFINE_KHASHMAP_BITS exampleMap.bits ∧
      exampleFresh.hash ≠ none := by
  decide

/-! ## Map objects without a bucket array -/

theorem khashmap_size_pos {h : khashmap} {size : Nat} (hs : khashmap_size h = some size) :
    ∃ n, size = n + 1 := by
  unfold khashmap_size at hs
  split at hs
  · next hb =>
    have hpow : 2 ^ h.bits < 2 ^ BITS_PER_LONG := Nat.pow_lt_pow_right (by decide) hb
    rw [Nat.mod_eq_of_lt hpow] at hs
    have hpos : 0 < 2 ^ h.bits := Nat.pow_pos (by decide)
    exact ⟨2 ^ h.bits - 1, by rw [← Option.some.inj hs]; omega⟩
  · cases hs

/-- C14: `khashmap_destroy` on a null map pointer returns without a release call and
with no state to change; on a map object whose `hash` is `NULL` it does not return: its
traversal reads the head of bucket 0 through `hash`. -/
theorem khashmap_destroy_null (K : Kernel) :
    khashmap_destroy K none = some (none, []) ∧
      ∀ h : khashmap, h.hash = none → khashmap_destroy K (some h) = none := by
  refine ⟨rfl, fun h hnull => ?_⟩
  unfold khashmap_destroy khashmap_for_each_entry_safe
  cases hs : khashmap_size h with
  | none => simp only [hs]
  | some size =>
    obtain ⟨n, rfl⟩ := khashmap_size_pos hs
    simp only [hs, khashmap_for_each_entry_safe_loop, hnull]

theorem khashmap_destroy_null_witness :
    khashmap_destroy exampleKernel none = some (none, []) ∧
      (DEFINE_KHASHMAP_BITS 4).hash = none ∧
      khashmap_destroy exampleKernel (some (DEFINE_KHASHMAP_BITS 4)) = none :=
  ⟨(khashmap_destroy_null exampleKernel).1, rfl,
    (khashmap_destroy_null exampleKernel).2 (DEFINE_KHASHMAP_BITS 4) rfl⟩

/-- C14, as stated, fails: `khashmap_destroy` on the object `DEFINE_KHASHMAP` defines,
not yet initialized, does not return. -/
theorem khashmap_destroy_uninitialized :
    DEFINE_KHASHMAP.hash = none ∧
      ¬ ∃ r, khashmap_destroy exampleKernel (some DEFINE_KHASHMAP) = some r := by
  refine ⟨rfl, ?_⟩
  rintro ⟨r, hr⟩
  have : khashmap_destroy exampleKernel (some DEFINE_KHASHMAP) = none := by decide
  rw [this] at hr
  cases hr

/-- C15: `khashmap_empty` returns true on a null map pointer; on a map object whose
`hash` is `NULL` it does not return: its traversal reads the head of bucket 0 through
`hash`. -/
theorem khashmap_empty_null :
    khashmap_empty none = some true ∧
      ∀ h : khashmap, h.hash = none → khashmap_empty (some h) = none := by
  refine ⟨rfl, fun h hnull => ?_⟩
  unfold khashmap_empty
  cases hs : khashmap_size h with
  | none => simp only [hs]
  | some size =>
    obtain ⟨n, rfl⟩ := khashmap_size_pos hs
    simp only [hs, khashmap_empty_loop, hnull]

theorem khashmap_empty_null_witness :
    khashmap_empty none = some true ∧ (DEFINE_KHASHMAP_BITS 4).hash = none ∧
      khashmap_empty (some (DEFINE_KHASHMAP_BITS 4)) = none :=
  ⟨khashmap_empty_null.1, rfl, khashmap_empty_null.2 (DEFINE_KHASHMAP_BITS 4) rfl⟩

/-- C15, as stated, fails: `khashmap_empty` on the object `DEFINE_KHASHMAP` defines,
not yet initialized, does not return true. -/
theorem khashmap_empty_uninitialized :
    DEFINE_KHASHMAP.hash = none ∧ khashmap_empty (some DEFINE_KHASHMAP) ≠ some true := by
  decide

/-! ## Initialization: sizes, failure and the allocation backend -/

theorem khashmap_alloc_loop_ok (n : Nat) :
    ∀ (i : Nat) (arr : List hlist_head), i + n ≤ arr.length → i + n ≤ INT_MAX →
      ∃ arr', khashmap_alloc_loop n i arr = some arr' := by
  induction n with
  | zero =>
    intro i arr _ _
    exact ⟨arr, rfl⟩
  | succ n ih =>
    intro i arr hlen hmax
    have h1 : i < arr.length := by omega
    have h2 : i + 1 ≤ INT_MAX := by omega
    obtain ⟨arr', harr'⟩ := ih (i + 1) (arr.set i []) (by rw [List.length_set]; omega)
      (by omega)
    exact ⟨arr', by simp only [khashmap_alloc_loop, h1, h2, if_true, harr']⟩

/-- For `bits` up to 30 `khashmap_init` makes the allocation call of its branch and
returns: with `-ENOMEM` and `hash = NULL` when the kernel answers `NULL`, with 0 and
`2 ^ bits` empty chains otherwise. -/
theorem khashmap_init_of_le (K : Kernel) (m : khashmap) (hle : m.bits ≤ 30) :
    ∃ c, khashmap_alloc_call K m = some c ∧
      (c = kernel_call.kmalloc (2 ^ m.bits * sizeof_hlist_head) ∨
        c = kernel_call.vmalloc (2 ^ m.bits * sizeof_hlist_head)) ∧
      (K.answer c = none →
        khashmap_init K m = some (-ENOMEM, { m with hash := none })) ∧
      (K.answer c ≠ none →
        khashmap_init K m =
          some (0, { bits := m.bits, hash := some (List.replicate (2 ^ m.bits) []) })) := by
  obtain ⟨hsize, hbytes⟩ := khashmap_size_of_le hle
  have h30 : 2 ^ m.bits ≤ 2 ^ 30 := Nat.pow_le_pow_right (by decide) hle
  have hloop : ∀ stale : Nat → hlist_head, ∃ arr', khashmap_alloc_loop (2 ^ m.bits) 0
      ((List.range (2 ^ m.bits * sizeof_hlist_head / sizeof_hlist_head)).map stale) =
        some arr' := by
    intro stale
    apply khashmap_alloc_loop_ok
    · simp [sizeof_hlist_head]
    · simp only [INT_MAX]
      omega
  have hok : ∀ stale : Nat → hlist_head,
      (if 2 ^ m.bits * sizeof_hlist_head < K.PAGE_SIZE
        then K.kmalloc (2 ^ m.bits * sizeof_hlist_head)
        else K.vmalloc (2 ^ m.bits * sizeof_hlist_head)) = some stale →
      khashmap_init K m =
        some (0, { bits := m.bits, hash := some (List.replicate (2 ^ m.bits) []) }) := by
    intro stale hst
    obtain ⟨arr', harr'⟩ := hloop stale
    have hinit : khashmap_init K m = some (0, { m with hash := some arr' }) := by
      simp only [khashmap_init, khashmap_alloc, hbytes, hst, hsize, harr', Option.map_some']
    rw [hinit, (khashmap_init_ok hinit).1]
  have hfail :
      (if 2 ^ m.bits * sizeof_hlist_head < K.PAGE_SIZE
        then K.kmalloc (2 ^ m.bits * sizeof_hlist_head)
        else K.vmalloc (2 ^ m.bits * sizeof_hlist_head)) = none →
      khashmap_init K m = some (-ENOMEM, { m with hash := none }) := by
    intro hst
    simp only [khashmap_init, khashmap_alloc, hbytes, hst]
  by_cases hlt : 2 ^ m.bits * sizeof_hlist_head < K.PAGE_SIZE
  · simp only [hlt, if_true] at hok hfail
    refine ⟨_, by simp only [khashmap_alloc_call, hbytes, hlt, if_true], Or.inl rfl,
      hfail, fun hne => ?_⟩
    cases hst : K.kmalloc (2 ^ m.bits * sizeof_hlist_head) with
    | none => exact absurd hst hne
    | some stale => exact hok stale hst
  · simp only [hlt, if_false] at hok hfail
    refine ⟨_, by simp only [khashmap_alloc_call, hbytes, hlt, if_false], Or.inr rfl,
      hfail, fun hne => ?_⟩
    cases hst : K.vmalloc (2 ^ m.bits * sizeof_hlist_head) with
    | none => exact absurd hst hne
    | some stale => exact hok stale hst

/-- C12 at `bits = 61`: the byte size of the bucket array wraps to 0, the allocation of
0 bytes succeeds, and `khashmap_init` does not return: its loop writes the head of
bucket 0 outside the block. -/
theorem khashmap_init_size_wraps :
    khashmap_size (DEFINE_KHASHMAP_BITS 61) = some (2 ^ 61) ∧
      khashmap_size_in_bytes (DEFINE_KHASHMAP_BITS 61) = some 0 ∧
      khashmap_alloc_call exampleKernel (DEFINE_KHASHMAP_BITS 61) =
        some (kernel_call.kmalloc 0) ∧
      (exampleKernel.answer (kernel_call.kmalloc 0)).isSome = true ∧
      khashmap_init exampleKernel (DEFINE_KHASHMAP_BITS 61) = none := by
  decide

theorem khashmap_hashfn_congr {K K' : Kernel} (hhash : K'.hash_long = K.hash_long)
    (h : khashmap) (id : Nat) : khashmap_hashfn K' h id = khashmap_hashfn K h id := by
  simp only [khashmap_hashfn, hhash]

theorem khashmap_find_item_congr {K K' : Kernel} (hhash : K'.hash_long = K.hash_long)
    (h : khashmap) (key : Nat) : khashmap_find_item K' h key = khashmap_find_item K h key := by
  simp only [khashmap_find_item, khashmap_hashfn_congr hhash]

theorem khashmap_step_congr {K K' : Kernel} (hhash : K'.hash_long = K.hash_long)
    (h : khashmap) (op : khashmap_op) : khashmap_step K' h op = khashmap_step K h op := by
  cases op with
  | add key val zalloc =>
    simp only [khashmap_step, khashmap_add, khashmap_find_item_congr hhash,
      khashmap_hashfn_congr hhash]
  | del key => simp only [khashmap_step, khashmap_del, khashmap_find_item_congr hhash]

theorem khashmap_run_congr {K K' : Kernel} (hhash : K'.hash_long = K.hash_long)
    (ops : List khashmap_op) :
    ∀ h : khashmap, khashmap_run K' h ops = khashmap_run K h ops := by
  induction ops with
  | nil => intro h; rfl
  | cons op ops ih =>
    intro h
    simp only [khashmap_run, khashmap_step_congr hhash, ih]

theorem khashmap_size_in_bytes_congr {h m : khashmap} (hbits : h.bits = m.bits) :
    khashmap_size_in_bytes h = khashmap_size_in_bytes m := by
  simp only [khashmap_size_in_bytes, khashmap_size, hbits]

theorem khashmap_step_bits {K : Kernel} {h h' : khashmap} {op : khashmap_op}
    (hstep : khashmap_step K h op = some h') : h'.bits = h.bits := by
  cases op with
  | add key val zalloc =>
    simp only [khashmap_step, Option.map_eq_some'] at hstep
    obtain ⟨⟨r, h1⟩, hadd, rfl⟩ := hstep
    obtain ⟨arr, chain, -, -, hcases⟩ := khashmap_add_cases hadd
    rcases hcases with ⟨p, it, -, -, -, rfl⟩ | ⟨-, -, -, rfl⟩ | ⟨-, -, -, rfl⟩ <;> rfl
  | del key =>
    simp only [khashmap_step] at hstep
    obtain ⟨arr, chain, -, -, hcases⟩ := khashmap_del_cases hstep
    rcases hcases with ⟨p, it, -, -, -, rfl⟩ | ⟨-, rfl⟩ <;> rfl

theorem khashmap_run_bits {K : Kernel} (ops : List khashmap_op) :
    ∀ {h h' : khashmap}, khashmap_run K h ops = some h' → h'.bits = h.bits := by
  induction ops with
  | nil =>
    intro h h' hrun
    simp only [khashmap_run, Option.some.injEq] at hrun
    rw [← hrun]
  | cons op ops ih =>
    intro h h' hrun
    simp only [khashmap_run] at hrun
    cases hstep : khashmap_step K h op with
    | none => simp [hstep] at hrun
    | some h1 =>
      simp only [hstep, Option.some_bind] at hrun
      rw [ih hrun, khashmap_step_bits hstep]

/-- The function `khashmap_alloc` returns `-ENOMEM` exactly when the kernel answers
`NULL` to its allocation call, and then `hash` is `NULL`. -/
theorem khashmap_alloc_enomem_iff (K : Kernel) (m : khashmap) :
    ∀ c h', khashmap_alloc_call K m = some c →
      (khashmap_alloc K m = some (-ENOMEM, h') ↔
        (K.answer c = none ∧ h' = { m with hash := none })) := by
  intro c h' hc
  have key : ∀ (size : Nat) (ans : Option (Nat → hlist_head)),
      khashmap_size_in_bytes m = some size →
      (if size < K.PAGE_SIZE then K.kmalloc size else K.vmalloc size) = ans →
      (khashmap_alloc K m = some (-ENOMEM, h') ↔
        (ans = none ∧ h' = { m with hash := none })) := by
    intro size ans hb hans
    cases ans with
    | none =>
      simp only [khashmap_alloc, hb, hans, Option.some.injEq, Prod.mk.injEq, true_and]
      exact eq_comm
    | some stale =>
      simp only [khashmap_alloc, hb, hans, false_and, iff_false, reduceCtorEq]
      cases khashmap_size m with
      | none => simp
      | some n =>
        simp only [Option.map_eq_some', Prod.mk.injEq, not_exists, not_and]
        intro x _ h0
        simp [ENOMEM] at h0
  simp only [khashmap_alloc_call] at hc
  cases hb : khashmap_size_in_bytes m with
  | none => simp [hb] at hc
  | some size =>
    simp only [hb] at hc
    by_cases hlt : size < K.PAGE_SIZE
    · simp only [hlt, if_true, Option.some.injEq] at hc
      subst hc
      exact key size _ hb (by simp only [hlt, if_true, Kernel.answer])
    · simp only [hlt, if_false, Option.some.injEq] at hc
      subst hc
      exact key size _ hb (by simp only [hlt, if_false, Kernel.answer])

/-- C16: `khashmap_alloc` calls `kmalloc` exactly when the byte size of the bucket array
is below `PAGE_SIZE` and `vmalloc` otherwise: its outcome depends on the kernel through
the answer to that call only, and it returns `-ENOMEM` exactly when that answer is
`NULL`; `khashmap_free` on a map with the same `bits`, such as every map reached from
the initialized one, releases to the allocator of that call; and for two kernels with
the same `hash_long`, whatever their page size and allocators, a successful
`khashmap_init` leaves the same map, `2 ^ bits` empty chains, and every later
`khashmap_find`, `khashmap_add`, `khashmap_del` and sequence of calls has the same
result. -/
theorem khashmap_backend_irrelevant (K K' : Kernel) (m : khashmap)
    (hhash : K'.hash_long = K.hash_long) :
    (∀ size, khashmap_size_in_bytes m = some size →
        khashmap_alloc_call K m = some (if size < K.PAGE_SIZE
          then kernel_call.kmalloc size else kernel_call.vmalloc size)) ∧
      (∀ K2 : Kernel, K2.PAGE_SIZE = K.PAGE_SIZE →
        (∀ c, khashmap_alloc_call K m = some c → K2.answer c = K.answer c) →
        khashmap_alloc K2 m = khashmap_alloc K m) ∧
      (∀ c h', khashmap_alloc_call K m = some c →
        (khashmap_alloc K m = some (-ENOMEM, h') ↔
          (K.answer c = none ∧ h' = { m with hash := none }))) ∧
      (∀ h c, h.bits = m.bits → khashmap_alloc_call K m = some c →
        ∃ f, khashmap_free K h = some f ∧ f.releases c = true) ∧
      (∀ h0 ops h, khashmap_init K m = some (0, h0) → khashmap_run K h0 ops = some h →
        ∃ c f, khashmap_alloc_call K m = some c ∧ khashmap_free K h = some f ∧
          f.releases c = true) ∧
      (∀ h0 h0', khashmap_init K m = some (0, h0) → khashmap_init K' m = some (0, h0') →
        h0' = h0 ∧ h0 = { bits := m.bits, hash := some (List.replicate (2 ^ m.bits) []) } ∧
        ∀ ops, khashmap_run K' h0' ops = khashmap_run K h0 ops) ∧
      ∀ h key val zalloc, khashmap_find K' h key = khashmap_find K h key ∧
        khashmap_add K' h key val zalloc = khashmap_add K h key val zalloc ∧
        khashmap_del K' h key = khashmap_del K h key := by
  have hfree : ∀ h c, h.bits = m.bits → khashmap_alloc_call K m = some c →
      ∃ f, khashmap_free K h = some f ∧ f.releases c = true := by
    intro h c hbits hc
    simp only [khashmap_alloc_call] at hc
    simp only [khashmap_free, khashmap_size_in_bytes_congr hbits]
    cases hb : khashmap_size_in_bytes m with
    | none => simp [hb] at hc
    | some size =>
      simp only [hb] at hc
      by_cases hlt : size < K.PAGE_SIZE
      · simp only [hlt, if_true, Option.some.injEq] at hc
        subst hc
        exact ⟨kernel_call.kfree h.hash, by simp only [hlt, if_true], rfl⟩
      · simp only [hlt, if_false, Option.some.injEq] at hc
        subst hc
        exact ⟨kernel_call.vfree h.hash, by simp only [hlt, if_false], rfl⟩
  refine ⟨?_, ?_, khashmap_alloc_enomem_iff K m, hfree, ?_, ?_, ?_⟩
  · intro size hsize
    simp only [khashmap_alloc_call, hsize]
    split <;> rfl
  · intro K2 hpage hans
    cases hb : khashmap_size_in_bytes m with
    | none => simp only [khashmap_alloc, hb]
    | some size =>
      by_cases hlt : size < K.PAGE_SIZE
      · have := hans (kernel_call.kmalloc size)
          (by simp only [khashmap_alloc_call, hb, hlt, if_true])
        simp only [Kernel.answer] at this
        simp only [khashmap_alloc, hb, hpage, hlt, if_true, this]
      · have := hans (kernel_call.vmalloc size)
          (by simp only [khashmap_alloc_call, hb, hlt, if_false])
        simp only [Kernel.answer] at this
        simp only [khashmap_alloc, hb, hpage, hlt, if_false, this]
  · intro h0 ops h hinit hrun
    obtain ⟨rfl, hle⟩ := khashmap_init_ok hinit
    obtain ⟨c, hc, -⟩ := khashmap_init_of_le K m hle
    have hbits := khashmap_run_bits ops hrun
    obtain ⟨f, hf, hrel⟩ := hfree h c hbits hc
    exact ⟨c, f, hc, hf, hrel⟩
  · intro h0 h0' hinit hinit'
    obtain ⟨rfl, -⟩ := khashmap_init_ok hinit
    obtain ⟨rfl, -⟩ := khashmap_init_ok hinit'
    exact ⟨rfl, rfl, fun ops => khashmap_run_congr hhash ops _⟩
  · intro h key val zalloc
    refine ⟨?_, ?_, ?_⟩
    · simp only [khashmap_find, khashmap_find_item_congr hhash]
    · simp only [khashmap_add, khashmap_find_item_congr hhash, khashmap_hashfn_congr hhash]
    · simp only [khashmap_del, khashmap_find_item_congr hhash]

theorem khashmap_backend_irrelevant_witness :
    exampleKernelVmalloc.hash_long = exampleKernel.hash_long ∧
      khashmap_alloc_call exampleKernel (DEFINE_KHASHMAP_BITS 2) =
        some (kernel_call.kmalloc 32) ∧
      khashmap_alloc_call exampleKernelVmalloc (DEFINE_KHASHMAP_BITS 2) =
        some (kernel_call.vmalloc 32) ∧
      khashmap_free exampleKernel exampleMap = some (kernel_call.kfree exampleMap.hash) ∧
      khashmap_free exampleKernelVmalloc exampleMap =
        some (kernel_call.vfree exampleMap.hash) ∧
      khashmap_init exampleKernel (DEFINE_KHASHMAP_BITS 2) = some (0, exampleFresh) ∧
      khashmap_init exampleKernelVmalloc (DEFINE_KHASHMAP_BITS 2) =
        some (0, exampleFresh) ∧
      ∀ ops, khashmap_run exampleKernelVmalloc exampleFresh ops =
        khashmap_run exampleKernel exampleFresh ops :=
  ⟨rfl, by decide, by decide, by decide, by decide, by decide, by decide,
    ((khashmap_backend_irrelevant exampleKernel exampleKernelVmalloc
      (DEFINE_KHASHMAP_BITS 2) rfl).2.2.2.2.2.1 exampleFresh exampleFresh
      (by decide) (by decide)).2.2⟩

/-! ## The bucket index -/

theorem spec_hash_long_lt (mix : Nat → Nat → Nat) (val bits : Nat) :
    spec_hash_long mix val bits < 2 ^ bits :=
  Nat.mod_lt _ (Nat.pow_pos (by decide))

/-- C17: with `hash_long` as the spec has it, a hash reduced modulo `2 ^ bits`, the
bucket index `khashmap_hashfn(map, key)` is below `khashmap_size(map) = 2 ^ bits` for
every `bits` for which the size is defined and every key, `bits = 0` included; and on
every map reached from a successful `khashmap_init` the index is inside the bucket
array, so that `khashmap_find`, `khashmap_add` and `khashmap_del` return. -/
theorem khashmap_hashfn_in_bounds (K : Kernel) (mix : Nat → Nat → Nat) (m : khashmap)
    (key : Nat) (hhash : K.hash_long = spec_hash_long mix) :
    (∀ n, khashmap_size m = some n → n = 2 ^ m.bits ∧ khashmap_hashfn K m key < n) ∧
      ∀ h0 ops, khashmap_init K m = some (0, h0) →
        ∃ h arr, khashmap_run K h0 ops = some h ∧ h.hash = some arr ∧
          arr.length = 2 ^ m.bits ∧ khashmap_hashfn K h key < arr.length ∧
          (khashmap_find K h key).isSome = true ∧
          (∀ val zalloc, (khashmap_add K h key val zalloc).isSome = true) ∧
          (khashmap_del K h key).isSome = true := by
  have hK : ∀ bits val, K.hash_long val bits < 2 ^ bits := by
    intro bits val
    rw [hhash]
    exact spec_hash_long_lt mix val bits
  constructor
  · intro n hn
    unfold khashmap_size at hn
    split at hn
    · next hb =>
      have hpow : 2 ^ m.bits < 2 ^ BITS_PER_LONG := Nat.pow_lt_pow_right (by decide) hb
      rw [Nat.mod_eq_of_lt hpow, Option.some.injEq] at hn
      subst hn
      exact ⟨rfl, hK _ _⟩
    · cases hn
  · intro h0 ops hinit
    obtain ⟨hinv0, hb0⟩ := khashmap_init_inv (hK m.bits) hinit
    obtain ⟨h, arr, hrun, hinv, hbits⟩ := khashmap_inv.run ops hinv0
    obtain ⟨chain, hb⟩ := hinv.bucket key
    refine ⟨h, arr, hrun, hinv.hash_eq, by rw [hinv.size_eq, hbits, hb0],
      (List.getElem?_eq_some.mp hb).1, ?_, fun val zalloc => ?_, ?_⟩
    · simp [khashmap_find_eq, khashmap_bucket, hinv.hash_eq, hb]
    · obtain ⟨r, h', -, hadd, -⟩ := hinv.add key val zalloc
      simp [hadd]
    · obtain ⟨h', -, hdel, -⟩ := hinv.del key
      simp [hdel]

theorem khashmap_hashfn_in_bounds_witness :
    exampleKernel.hash_long = spec_hash_long (fun val _ => val) ∧
      khashmap_size (DEFINE_KHASHMAP_BITS 0) = some 1 ∧
      khashmap_init exampleKernel (DEFINE_KHASHMAP_BITS 0) =
        some (0, { bits := 0, hash := some [[]] }) ∧
      khashmap_hashfn exampleKernel (DEFINE_KHASHMAP_BITS 0) 12345 < 1 ∧
      ∃ h arr, khashmap_run exampleKernel { bits := 0, hash := some [[]] }
          [.add 12345 1 true, .add 7 2 true, .del 12345] = some h ∧
        h.hash = some arr ∧ arr.length = 2 ^ (DEFINE_KHASHMAP_BITS 0).bits ∧
        khashmap_hashfn exampleKernel h 12345 < arr.length ∧
        (khashmap_find exampleKernel h 12345).isSome = true ∧
        (∀ val zalloc, (khashmap_add exampleKernel h 12345 val zalloc).isSome = true) ∧
        (khashmap_del exampleKernel h 12345).isSome = true :=
  ⟨rfl, by decide, by decide,
    ((khashmap_hashfn_in_bounds exampleKernel (fun val _ => val) (DEFINE_KHASHMAP_BITS 0)
      12345 rfl).1 1 (by decide)).2,
    (khashmap_hashfn_in_bounds exampleKernel (fun val _ => val) (DEFINE_KHASHMAP_BITS 0)
      12345 rfl).2 { bits := 0, hash := some [[]] }
      [.add 12345 1 true, .add 7 2 true, .del 12345] (by decide)⟩

end Khashmap
